import Mathlib

/-!
# Verification of the Logseq → Orca importer

A shallow embedding of the importer plugin (parser.ts, importer.ts, index.tsx)
into Lean 4, together with theorems settling the specification claims.

JavaScript strings are modelled as `List Char` (the sources never use astral
characters in a position where UTF-16 surrogate pairs would matter).  JS `Map`
and plain objects are modelled as insertion-ordered association lists whose
`set` operation updates in place (keeping the original position) and otherwise
appends, matching JS `Map.set` / property-assignment semantics.
-/

/-- JS strings are sequences of (BMP) code units, modelled as lists of chars. -/
abbrev Str := List Char

/-- Coerce a Lean string literal into the `Str` representation. -/
def str (s : String) : Str := s.data

/-- The whitespace class used by JS `\s`, `String.prototype.trim` and the
regex `\s*`.  (The exotic Unicode space separators beyond NBSP/BOM, which the
repository's data never contains, are omitted.) -/
def isJsWs (c : Char) : Bool :=
  c = ' ' || c = '\t' || c = '\n' || c = '\r' || c = '\x0b' || c = '\x0c' ||
  c = '\u00A0' || c = '\uFEFF'

/-- JS regex `.` (without the `s` flag): any char except a line terminator. -/
def jsDot (c : Char) : Bool :=
  !(c = '\n' || c = '\r' || c = '\u2028' || c = '\u2029')

/-- JS regex `\w`: ASCII letters, digits and underscore. -/
def isWordChar (c : Char) : Bool :=
  ('a' ≤ c && c ≤ 'z') || ('A' ≤ c && c ≤ 'Z') || ('0' ≤ c && c ≤ '9') || c = '_'

/-- `String.prototype.trim`: strip leading and trailing JS whitespace. -/
def jsTrim (s : Str) : Str :=
  ((s.dropWhile isJsWs).reverse.dropWhile isJsWs).reverse

/-- `String.prototype.split(sep)` for a one-char separator, faithful to JS:
splitting the empty string yields `[""]`, and a trailing separator yields a
trailing empty piece. -/
def jsSplit (sep : Char) : Str → List Str
  | [] => [[]]
  | c :: rest =>
    if c = sep then [] :: jsSplit sep rest
    else
      match jsSplit sep rest with
      | l :: ls => (c :: l) :: ls
      | [] => [[c]]

/-- `String.prototype.split('\n')`. -/
def splitLines (s : Str) : List Str := jsSplit '\n' s

/-- First index at which `pat` occurs as a contiguous substring of `s`
(JS `String.prototype.indexOf`, with `none` for JS's `-1`). -/
def indexOfSub (pat : Str) : Str → Option Nat
  | [] => if pat = [] then some 0 else none
  | c :: rest =>
    if pat.isPrefixOf (c :: rest) then some 0
    else (indexOfSub pat rest).map (· + 1)

/-- JS `String.prototype.substring(a, b)`: clamps to the length and swaps the
endpoints when `a > b`. -/
def jsSubstring (s : Str) (a b : Nat) : Str :=
  (s.take (max a b)).drop (min a b)

/-- JS object / `Map` update: overwrite the value in place when the key is
already present (keeping its insertion position), otherwise append. -/
def objSet (k : Str) (v : α) : List (Str × α) → List (Str × α)
  | [] => [(k, v)]
  | (k', v') :: rest =>
    if k' = k then (k, v) :: rest else (k', v') :: objSet k v rest

/-- JS `Map.get`: the value stored at `k`, if present. -/
def objGet (k : Str) : List (Str × α) → Option α
  | [] => none
  | (k', v') :: rest => if k' = k then some v' else objGet k rest

/-! ## The parser data model (parser.ts) -/

/-- `LogseqBlock` from parser.ts: a block of the source tree.

The JS code stores `level = indentation / 2` (an exact float); we store the
raw indentation width instead.  Halving is strictly monotone, so every
comparison the algorithm performs on levels — and every "level strictly
less/equal" statement in the claims — is unchanged, while the development
stays kernel-computable (rational arithmetic does not reduce in the kernel). -/
structure LogseqBlock where
  id : Option Str
  content : Str
  properties : List (Str × Str)
  children : List LogseqBlock
  level : Nat
deriving Repr

/-- `LogseqPage` from parser.ts. -/
structure LogseqPage where
  name : Str
  properties : List (Str × Str)
  blocks : List LogseqBlock
deriving Repr

/-- `LogseqGraph` from parser.ts: all pages plus the UUID → block index. -/
structure LogseqGraph where
  pages : List (Str × LogseqPage)
  blocks : List (Str × LogseqBlock)
deriving Repr

/-- Number of blocks in a forest (used as a termination measure and as the
subtree size for flattened-position reasoning). -/
def forestSize : List LogseqBlock → Nat
  | [] => 0
  | b :: bs => 1 + forestSize b.children + forestSize bs
termination_by l => sizeOf l
decreasing_by
  all_goals (cases b; simp; try omega)

example : forestSize [⟨none, str "a", [], [⟨none, str "b", [], [], 1⟩], 0⟩] = 2 := by
  simp [forestSize]

/-! ## The line parser (parser.ts, `parseLogseqFile`)

The JS code builds the tree by mutation: a new block is pushed onto
`parent.children` at creation time and its own `children` array is filled in
later.  The standard purely functional rendering used here keeps, for every
open block, a frame holding its scalar fields plus the children completed so
far (most recent first), and attaches the completed block to the frame below
when the block is closed (popped); the resulting tree is the same. -/

/-- `PROPERTY_REGEX = /^(\w+):: (.+)$/` applied to a whole line. -/
def matchProperty (l : Str) : Option (Str × Str) :=
  let key := l.takeWhile isWordChar
  let rest := l.drop key.length
  if key.isEmpty then none
  else if (str ":: ").isPrefixOf rest then
    let v := rest.drop 3
    if !v.isEmpty && v.all jsDot then some (key, v) else none
  else none

/-- `ID_REGEX = /^id:: (.+)$/` applied to a whole line. -/
def matchId (l : Str) : Option Str :=
  if (str "id:: ").isPrefixOf l then
    let v := l.drop 5
    if !v.isEmpty && v.all jsDot then some v else none
  else none

/-- An open block on the parser's stack: the block's scalar fields plus its
completed children so far, most recent first. -/
structure Frame where
  id : Option Str
  content : Str
  properties : List (Str × Str)
  level : Nat
  childrenRev : List LogseqBlock
deriving Repr

/-- Close an open block: assemble the `LogseqBlock` from its frame. -/
def closeFrame (f : Frame) : LogseqBlock :=
  ⟨f.id, f.content, f.properties, f.childrenRev.reverse, f.level⟩

/-- The continuation of the `while (top.level >= level) stack.pop()` loop
once at least one frame was popped: `pending` is the block just closed,
waiting to be attached to the frame below (or to the completed top-level
blocks when the stack runs out). -/
def popGEAux (level : Nat) (pending : LogseqBlock) :
    List Frame → List LogseqBlock → List Frame × List LogseqBlock
  | [], doneRev => ([], pending :: doneRev)
  | g :: rest, doneRev =>
    if level ≤ g.level then
      popGEAux level (closeFrame { g with childrenRev := pending :: g.childrenRev }) rest doneRev
    else ({ g with childrenRev := pending :: g.childrenRev } :: rest, doneRev)

/-- The `while (stack.length > 0 && top.level >= level) stack.pop()` loop.
Each popped frame's completed block becomes the newest child of the frame
below it, or a completed top-level block (most recent first) if the stack ran
out. -/
def popGE (level : Nat) : List Frame → List LogseqBlock → List Frame × List LogseqBlock
  | [], doneRev => ([], doneRev)
  | f :: rest, doneRev =>
    if level ≤ f.level then popGEAux level (closeFrame f) rest doneRev
    else (f :: rest, doneRev)

/-- Helper for the end-of-input cascade: close every remaining frame, with
`pending` the block closed so far. -/
def popAllAux (pending : LogseqBlock) : List Frame → List LogseqBlock → List LogseqBlock
  | [], doneRev => (pending :: doneRev).reverse
  | g :: rest, doneRev =>
    popAllAux (closeFrame { g with childrenRev := pending :: g.childrenRev }) rest doneRev

/-- At end of input every still-open block is closed (in the JS code the tree
is already linked in place by mutation; functionally this is the final
cascade of attachments). -/
def popAll : List Frame → List LogseqBlock → List LogseqBlock
  | [], doneRev => doneRev.reverse
  | f :: rest, doneRev => popAllAux (closeFrame f) rest doneRev

/-- The parser's loop state.  In the JS code `currentBlock` is an alias of the
most recently created block; since pops happen only at a block line and are
followed by a push, `currentBlock` is non-null exactly when the stack is
non-empty and then aliases the top frame, so continuation lines update the
head frame here. -/
structure PState where
  pageProps : List (Str × Str)
  doneRev : List LogseqBlock
  stack : List Frame
  isFirstBlock : Bool
deriving Repr

/-- One iteration of `for (const line of lines)` in `parseLogseqFile`. -/
def stepLine (st : PState) (line : Str) : PState :=
  let trimmed := jsTrim line
  if trimmed.isEmpty then st
  else
    let isBlockLine := (str "- ").isPrefixOf trimmed
    if st.isFirstBlock && !isBlockLine then
      match matchProperty trimmed with
      | some (k, v) => { st with pageProps := objSet k v st.pageProps }
      | none => st
    else if isBlockLine then
      let indentation := (line.takeWhile isJsWs).length
      let level := indentation
      let (stack1, done1) := popGE level st.stack st.doneRev
      let newFrame : Frame := ⟨none, trimmed.drop 2, [], level, []⟩
      { st with doneRev := done1, stack := newFrame :: stack1, isFirstBlock := false }
    else
      match st.stack with
      | [] => st
      | f :: rest =>
        match matchId trimmed with
        | some v => { st with stack := { f with id := some v } :: rest }
        | none =>
          match matchProperty trimmed with
          | some (k, v) => { st with stack := { f with properties := objSet k v f.properties } :: rest }
          | none => st

/-- `page.name = file.path.replace(/\.md$/, "").split("/").pop() || "Untitled"`. -/
def pageNameOf (path : Str) : Str :=
  let base := if (str ".md").isSuffixOf path then path.take (path.length - 3) else path
  let last := (jsSplit '/' base).getLastD []
  if last.isEmpty then str "Untitled" else last

/-- `LogseqFile` from parser.ts. -/
structure LogseqFile where
  path : Str
  content : Str
deriving Repr

/-- `parseLogseqFile` from parser.ts: split into lines, fold the line handler
over them, close all still-open blocks. -/
def parseLogseqFile (file : LogseqFile) : LogseqPage :=
  let lines := splitLines file.content
  let st := lines.foldl stepLine ⟨[], [], [], true⟩
  { name := pageNameOf file.path
    properties := st.pageProps
    blocks := popAll st.stack st.doneRev }

/-- `recursivelyFindBlocks` from `parseLogseqGraph`: register every block that
declares an id into the UUID index, in pre-order. -/
def collectBlocksIdx : List LogseqBlock → List (Str × LogseqBlock) → List (Str × LogseqBlock)
  | [], acc => acc
  | b :: bs, acc =>
    let acc1 := match b.id with
      | some i => objSet i b acc
      | none => acc
    let acc2 := if b.children.length > 0 then collectBlocksIdx b.children acc1 else acc1
    collectBlocksIdx bs acc2
termination_by l _ => sizeOf l
decreasing_by
  all_goals (cases b; simp; try omega)

/-- `parseLogseqGraph` from parser.ts. -/
def parseLogseqGraph (files : List LogseqFile) : LogseqGraph :=
  files.foldl
    (fun g file =>
      let page := parseLogseqFile file
      { pages := objSet page.name page g.pages
        blocks := collectBlocksIdx page.blocks g.blocks })
    ⟨[], []⟩

example :
    (parseLogseqFile ⟨str "pages/Foo.md", str "- a\n  - b\n- c"⟩).blocks =
      [⟨none, str "a", [], [⟨none, str "b", [], [], 2⟩], 0⟩, ⟨none, str "c", [], [], 0⟩] := by
  rfl

/-! ## Content fragments and the inline-syntax scanner (importer.ts) -/

/-- An Orca `ContentFragment` as built by importer.ts: a JS object with a
kind tag `t`, a value `v`, and the optional fields the code sets (`q` on
block references, `a`/`w`/`h` on images, `f`/`fa` on file links). -/
structure ContentFragment where
  t : Str
  v : Str
  q : Option Str := none
  a : Option Str := none
  w : Option Nat := none
  h : Option Nat := none
  f : Option Str := none
  fa : Option (Str × Str) := none
deriving Repr, DecidableEq

/-- `fragments.push({t: "t", v: buffer})` when the buffer is non-empty
(`flushBuffer`); the flushed fragment precedes whatever follows. -/
def flushB (buffer : Str) (fs : List ContentFragment) : List ContentFragment :=
  if buffer.isEmpty then fs else { t := str "t", v := buffer } :: fs

/-- `block?.content || placeholder`: the referenced block's raw content, or
the block-not-found placeholder when the uuid is unresolved — or when the
resolved content is the empty string, which JS `||` treats as falsy. -/
def refValue (graph : LogseqGraph) (uuid : Str) : Str :=
  match objGet uuid graph.blocks with
  | some b => if b.content.isEmpty then str "未找到的块: " ++ uuid else b.content
  | none => str "未找到的块: " ++ uuid

/-! ### The attachment regex

`ATTACHMENT_REGEX = /(!?\[(.*?)\]\((.*?)\))\s*(\{:(.*?)\})?/` (importer.ts
line 107).  JS regex `.` excludes line terminators; the lazy groups take the
shortest text whose continuation matches.  For `\[(.*?)\]\(`: extending the
alt text past a `](` pair can never rescue a failed continuation (the later
path group would search for `)` in a subset of the same terminator-bounded
region), so committing to the first `](` is exact. -/

/-- Scan for the `](` ending the lazy alt-text group; the alt text itself
must consist of `.`-matchable chars. -/
def findAlt (acc : Str) : Str → Option (Str × Str)
  | ']' :: '(' :: rest => some (acc.reverse, rest)
  | c :: rest => if jsDot c then findAlt (c :: acc) rest else none
  | [] => none

/-- Scan for the first `stop` char ending a lazy `(.*?)` group. -/
def findClose (stop : Char) (acc : Str) : Str → Option (Str × Str)
  | c :: rest =>
    if c = stop then some (acc.reverse, rest)
    else if jsDot c then findClose stop (c :: acc) rest else none
  | [] => none

/-- The destructured pieces of an `ATTACHMENT_REGEX` match:
`match[0]`, `match[2]` (alt text), `match[3]` (path), `match[5]` (attrs). -/
structure AttachMatch where
  full : Str
  alt : Str
  path : Str
  attrs : Option Str := none
deriving Repr, DecidableEq

/-- Match `\[(.*?)\]\((.*?)\)\s*(\{:(.*?)\})?` directly after the opening
`[`, returning `(alt, path, attrs, consumed-after-the-bracket)`.  The greedy
`\s*` swallows trailing whitespace into `match[0]` even when the optional
attrs group is absent. -/
def attachBody (s : Str) : Option (Str × Str × Option Str × Str) :=
  match findAlt [] s with
  | none => none
  | some (alt, rest1) =>
    match findClose ')' [] rest1 with
    | none => none
    | some (path, rest2) =>
      let ws := rest2.takeWhile isJsWs
      let core := alt ++ ']' :: '(' :: path ++ ')' :: ws
      match rest2.drop ws.length with
      | '{' :: ':' :: rest4 =>
        match findClose '}' [] rest4 with
        | some (attrs, _) => some (alt, path, some attrs, core ++ '{' :: ':' :: attrs ++ ['}'])
        | none => some (alt, path, none, core)
      | _ => some (alt, path, none, core)

/-- `ATTACHMENT_REGEX` matched at the start of `s` (the greedy `!?` first
tries to consume a `!`; without a following `[` no match starts here). -/
def attachAt : Str → Option AttachMatch
  | '!' :: '[' :: rest =>
    (attachBody rest).map fun (alt, path, attrs, consumed) =>
      { full := '!' :: '[' :: consumed, alt := alt, path := path, attrs := attrs }
  | '[' :: rest =>
    (attachBody rest).map fun (alt, path, attrs, consumed) =>
      { full := '[' :: consumed, alt := alt, path := path, attrs := attrs }
  | _ => none

/-- `remaining.match(ATTACHMENT_REGEX)`: the leftmost match anywhere in the
string (the regex is *not* anchored), with its start index. -/
def attachSearch : Str → Option (Nat × AttachMatch)
  | [] => none
  | c :: rest =>
    match attachAt (c :: rest) with
    | some m => some (0, m)
    | none => (attachSearch rest).map fun im => (im.1 + 1, im.2)

/-- The regex `/^#([^\s#\[\]]+)/` of the simple-tag branch. -/
def tagMatchAt : Str → Option Str
  | '#' :: rest =>
    let tok := rest.takeWhile fun c => !(isJsWs c || c = '#' || c = '[' || c = ']')
    if tok.isEmpty then none else some tok
  | _ => none

/-- `/\.(png|jpg|jpeg|gif|svg|webp)$/i.test(localPath)`. -/
def isImagePath (p : Str) : Bool :=
  let lower := p.map Char.toLower
  [str ".png", str ".jpg", str ".jpeg", str ".gif", str ".svg", str ".webp"].any
    fun ext => ext.isSuffixOf lower

/-- `attrs.match(/:width\s+(\d+)/)?.[1]` (and the same for `:height`):
leftmost occurrence of the key followed by whitespace and digits. -/
def numAfterKey (key : Str) : Str → Option Nat
  | [] => none
  | s@(_ :: rest) =>
    if key.isPrefixOf s then
      let after := s.drop key.length
      let ws := after.takeWhile isJsWs
      if ws.isEmpty then numAfterKey key rest
      else
        let digits := (after.drop ws.length).takeWhile Char.isDigit
        if digits.isEmpty then numAfterKey key rest
        else some (digits.foldl (fun n c => n * 10 + (c.toNat - '0'.toNat)) 0)
    else numAfterKey key rest

/-- Branch 1 of the scan loop: `{{embed ((uuid))}}` (fragment, advance). -/
def branchEmbed (graph : LogseqGraph) (rest : Str) : Option (ContentFragment × Nat) :=
  if (str "\x7b\x7bembed ((").isPrefixOf rest then
    match indexOfSub (str "))\x7d\x7d") rest with
    | some endIdx =>
      let uuid := jsSubstring rest 10 endIdx
      some ({ t := str "r", v := refValue graph uuid, q := some uuid }, endIdx + 4)
    | none => none
  else none

/-- Branch 2: `((uuid))`. -/
def branchRef (graph : LogseqGraph) (rest : Str) : Option (ContentFragment × Nat) :=
  if (str "((").isPrefixOf rest then
    match indexOfSub (str "))") rest with
    | some endIdx =>
      let uuid := jsSubstring rest 2 endIdx
      some ({ t := str "r", v := refValue graph uuid, q := some uuid }, endIdx + 2)
    | none => none
  else none

/-- Branch 3: `[[page]]` or `#[[page]]`. -/
def branchLink (rest : Str) : Option (ContentFragment × Nat) :=
  if (str "[[").isPrefixOf rest || (str "#[[").isPrefixOf rest then
    let isTag := (str "#").isPrefixOf rest
    let startIdx := if isTag then 3 else 2
    match indexOfSub (str "]]") rest with
    | some endIdx =>
      some ({ t := str "r", v := jsSubstring rest startIdx endIdx }, endIdx + 2)
    | none => none
  else none

/-- Branch 4: a bare `#tag`. -/
def branchTag (rest : Str) : Option (ContentFragment × Nat) :=
  match tagMatchAt rest with
  | some tok => some ({ t := str "r", v := tok }, tok.length + 1)
  | none => none

/-- Branch 5: an attachment.  Faithful to the source, the *unanchored*
regex may match anywhere in `remaining`, yet the loop advances the cursor by
`fullMatch.length` from its current position. -/
def branchAttach (assetPathMap : List (Str × Str)) (rest : Str) :
    Option (ContentFragment × Nat) :=
  match attachSearch rest with
  | some (_, m) =>
    let frag :=
      match objGet m.path assetPathMap with
      | some newPath =>
        if isImagePath m.path then
          { t := str "i", v := newPath, a := some m.alt,
            w := m.attrs.bind (numAfterKey (str ":width")),
            h := m.attrs.bind (numAfterKey (str ":height")) }
        else
          { t := str "t",
            v := if m.alt.isEmpty then (jsSplit '/' m.path).getLastD [] else m.alt,
            f := some (str "l"), fa := some (newPath, str "_blank") }
      | none => { t := str "t", v := str "[附件未找到: " ++ m.path ++ str "]" }
    some (frag, m.full.length)
  | none => none

/-- The recognizer cascade tried at the current cursor position, in source
order; `none` means the current char is accumulated as plain text. -/
def recognizeAt (graph : LogseqGraph) (assetPathMap : List (Str × Str)) (rest : Str) :
    Option (ContentFragment × Nat) :=
  branchEmbed graph rest <|> branchRef graph rest <|> branchLink rest <|>
    branchTag rest <|> branchAttach assetPathMap rest

/-- An `ATTACHMENT_REGEX` match is never empty (its `match[0]` starts with
`[` or `![`). -/
theorem attachAt_full_pos (s : Str) (m : AttachMatch) (h : attachAt s = some m) :
    1 ≤ m.full.length := by
  rw [attachAt.eq_def] at h
  split at h
  · rcases Option.map_eq_some'.mp h with ⟨⟨alt, path, attrs, consumed⟩, _, rfl⟩
    simp
  · rcases Option.map_eq_some'.mp h with ⟨⟨alt, path, attrs, consumed⟩, _, rfl⟩
    simp
  · exact absurd h (by simp)

/-- The leftmost attachment match, wherever it starts, is never empty. -/
theorem attachSearch_full_pos (s : Str) (i : Nat) (m : AttachMatch)
    (h : attachSearch s = some (i, m)) : 1 ≤ m.full.length := by
  induction s generalizing i with
  | nil => simp [attachSearch] at h
  | cons c rest ih =>
    rw [attachSearch] at h
    cases h1 : attachAt (c :: rest) with
    | some m1 =>
      rw [h1] at h
      simp at h
      exact h.2 ▸ attachAt_full_pos _ _ h1
    | none =>
      rw [h1] at h
      simp only [Option.map_eq_some'] at h
      rcases h with ⟨⟨j, m2⟩, hj, hpair⟩
      injection hpair with e1 e2
      subst e1; subst e2
      exact ih j hj

/-- Branch 1 always advances. -/
theorem branchEmbed_adv_pos (graph : LogseqGraph) (rest : Str)
    (frag : ContentFragment) (adv : Nat)
    (h : branchEmbed graph rest = some (frag, adv)) : 1 ≤ adv := by
  unfold branchEmbed at h
  split at h
  · split at h
    · simp [Prod.mk.injEq] at h; omega
    · exact absurd h (by simp)
  · exact absurd h (by simp)

/-- Branch 2 always advances. -/
theorem branchRef_adv_pos (graph : LogseqGraph) (rest : Str)
    (frag : ContentFragment) (adv : Nat)
    (h : branchRef graph rest = some (frag, adv)) : 1 ≤ adv := by
  unfold branchRef at h
  split at h
  · split at h
    · simp [Prod.mk.injEq] at h; omega
    · exact absurd h (by simp)
  · exact absurd h (by simp)

/-- Branch 3 always advances. -/
theorem branchLink_adv_pos (rest : Str) (frag : ContentFragment) (adv : Nat)
    (h : branchLink rest = some (frag, adv)) : 1 ≤ adv := by
  unfold branchLink at h
  split at h
  · split at h
    · simp [Prod.mk.injEq] at h; omega
    · exact absurd h (by simp)
  · exact absurd h (by simp)

/-- Branch 4 always advances. -/
theorem branchTag_adv_pos (rest : Str) (frag : ContentFragment) (adv : Nat)
    (h : branchTag rest = some (frag, adv)) : 1 ≤ adv := by
  unfold branchTag at h
  split at h
  · simp [Prod.mk.injEq] at h; omega
  · exact absurd h (by simp)

/-- Branch 5 always advances. -/
theorem branchAttach_adv_pos (assetPathMap : List (Str × Str)) (rest : Str)
    (frag : ContentFragment) (adv : Nat)
    (h : branchAttach assetPathMap rest = some (frag, adv)) : 1 ≤ adv := by
  unfold branchAttach at h
  cases hs : attachSearch rest with
  | none => rw [hs] at h; exact absurd h (by simp)
  | some im =>
    rw [hs] at h
    simp [Prod.mk.injEq] at h
    have := attachSearch_full_pos rest im.1 im.2 (by rw [hs])
    omega

/-- Every recognizer branch advances the cursor. -/
theorem recognizeAt_adv_pos (graph : LogseqGraph) (assetPathMap : List (Str × Str))
    (rest : Str) (frag : ContentFragment) (adv : Nat)
    (h : recognizeAt graph assetPathMap rest = some (frag, adv)) : 1 ≤ adv := by
  unfold recognizeAt at h
  cases h1 : branchEmbed graph rest with
  | some v =>
    rw [h1] at h; simp at h
    rw [h] at h1
    exact branchEmbed_adv_pos graph rest frag adv h1
  | none =>
  rw [h1] at h; simp at h
  cases h2 : branchRef graph rest with
  | some v =>
    rw [h2] at h; simp at h
    rw [h] at h2
    exact branchRef_adv_pos graph rest frag adv h2
  | none =>
  rw [h2] at h; simp at h
  cases h3 : branchLink rest with
  | some v =>
    rw [h3] at h; simp at h
    rw [h] at h3
    exact branchLink_adv_pos rest frag adv h3
  | none =>
  rw [h3] at h; simp at h
  cases h4 : branchTag rest with
  | some v =>
    rw [h4] at h; simp at h
    rw [h] at h4
    exact branchTag_adv_pos rest frag adv h4
  | none =>
  rw [h4] at h; simp at h
  exact branchAttach_adv_pos assetPathMap rest frag adv h

/-- The scan loop of `parseContentToFragments`: `rest` is
`content.substring(i)`, `buffer` the pending plain-text accumulator. -/
def scanContent (graph : LogseqGraph) (assetPathMap : List (Str × Str)) :
    Str → Str → List ContentFragment
  | [], buffer => flushB buffer []
  | c :: tail, buffer =>
    match h : recognizeAt graph assetPathMap (c :: tail) with
    | some (frag, adv) =>
      flushB buffer (frag :: scanContent graph assetPathMap ((c :: tail).drop adv) [])
    | none => scanContent graph assetPathMap tail (buffer ++ [c])
termination_by rest _ => rest.length
decreasing_by
  · have hadv := recognizeAt_adv_pos _ _ _ _ _ h
    simp
    omega
  · simp

/-- `parseContentToFragments` from importer.ts (lines 183–285). -/
def parseContentToFragments (content : Str) (graph : LogseqGraph)
    (assetPathMap : List (Str × Str)) : List ContentFragment :=
  scanContent graph assetPathMap content []

/-- A fuel-indexed structural twin of `scanContent` (the kernel cannot reduce
well-founded recursion, so concrete runs are evaluated through this twin and
`scanFuel_eq`). -/
def scanFuel (graph : LogseqGraph) (assetPathMap : List (Str × Str)) :
    Nat → Str → Str → List ContentFragment
  | 0, _, buffer => flushB buffer []
  | _ + 1, [], buffer => flushB buffer []
  | fuel + 1, c :: tail, buffer =>
    match recognizeAt graph assetPathMap (c :: tail) with
    | some (frag, adv) =>
      flushB buffer (frag :: scanFuel graph assetPathMap fuel ((c :: tail).drop adv) [])
    | none => scanFuel graph assetPathMap fuel tail (buffer ++ [c])

/-- With enough fuel the twin agrees with the scan loop. -/
theorem scanFuel_eq (graph : LogseqGraph) (assetPathMap : List (Str × Str))
    (fuel : Nat) (rest buffer : Str) (hf : rest.length ≤ fuel) :
    scanFuel graph assetPathMap fuel rest buffer = scanContent graph assetPathMap rest buffer := by
  induction fuel generalizing rest buffer with
  | zero =>
    have : rest = [] := List.length_eq_zero.mp (Nat.le_zero.mp hf)
    subst this
    rw [scanFuel, scanContent]
  | succ fuel ih =>
    cases rest with
    | nil => rw [scanFuel, scanContent]
    | cons c tail =>
      rw [scanFuel, scanContent]
      cases hrec : recognizeAt graph assetPathMap (c :: tail) with
      | some fa =>
        have hadv := recognizeAt_adv_pos _ _ _ fa.1 fa.2 (by rw [hrec])
        simp only []
        rw [ih ((c :: tail).drop fa.2) [] (by simp at hf ⊢; omega)]
      | none =>
        simp only []
        rw [ih tail (buffer ++ [c]) (by simp at hf ⊢; omega)]

/-- Evaluation form of `parseContentToFragments` for concrete inputs. -/
theorem parseContentToFragments_eval (content : Str) (graph : LogseqGraph)
    (assetPathMap : List (Str × Str)) :
    parseContentToFragments content graph assetPathMap =
      scanFuel graph assetPathMap content.length content [] :=
  (scanFuel_eq graph assetPathMap content.length content [] le_rfl).symm

example :
    parseContentToFragments (str "See ((zzz))") ⟨[], []⟩ [] =
      [{ t := str "t", v := str "See " },
       { t := str "r", v := str "未找到的块: zzz", q := some (str "zzz") }] := by
  rw [parseContentToFragments_eval]
  decide

/-! ### General lemmas about the scanner -/

/-- A char that cannot start any anchored recognizer. -/
def inertChar (c : Char) : Bool :=
  !(c = '{' || c = '(' || c = '[' || c = '#')

/-- Dropping the head cannot create an attachment match. -/
theorem attachSearch_none_tail (c : Char) (s : Str)
    (h : attachSearch (c :: s) = none) : attachSearch s = none := by
  rw [attachSearch] at h
  cases h1 : attachAt (c :: s) with
  | some m => rw [h1] at h; simp at h
  | none =>
    rw [h1] at h
    simp at h
    cases h2 : attachSearch s with
    | none => rfl
    | some im => rw [h2] at h; simp at h

/-- A cons-list is not a prefix when the heads differ. -/
theorem isPrefixOf_cons_false {a c : Char} (pr tail : Str) (h : ¬ a = c) :
    (a :: pr).isPrefixOf (c :: tail) = false := by
  simp [List.isPrefixOf]
  intro h1
  exact absurd h1 h

/-- Branch 1 needs a `{` at the cursor. -/
theorem branchEmbed_none_of_head (graph : LogseqGraph) (c : Char) (tail : Str)
    (hc : ¬ c = '{') : branchEmbed graph (c :: tail) = none := by
  unfold branchEmbed
  rw [show (str "\x7b\x7bembed ((") = '{' :: str "\x7bembed ((" from rfl,
    isPrefixOf_cons_false _ _ (Ne.symm hc)]
  simp

/-- Branch 2 needs a `(` at the cursor. -/
theorem branchRef_none_of_head (graph : LogseqGraph) (c : Char) (tail : Str)
    (hc : ¬ c = '(') : branchRef graph (c :: tail) = none := by
  unfold branchRef
  rw [show (str "((") = '(' :: str "(" from rfl, isPrefixOf_cons_false _ _ (Ne.symm hc)]
  simp

/-- Branch 3 needs a `[` or `#` at the cursor. -/
theorem branchLink_none_of_head (c : Char) (tail : Str)
    (hc1 : ¬ c = '[') (hc2 : ¬ c = '#') : branchLink (c :: tail) = none := by
  unfold branchLink
  rw [show (str "[[") = '[' :: str "[" from rfl, isPrefixOf_cons_false _ _ (Ne.symm hc1),
    show (str "#[[") = '#' :: str "[[" from rfl, isPrefixOf_cons_false _ _ (Ne.symm hc2)]
  simp

/-- Branch 4 needs a `#` at the cursor. -/
theorem tagMatchAt_none_of_head (c : Char) (tail : Str) (hc : ¬ c = '#') :
    tagMatchAt (c :: tail) = none := by
  rw [tagMatchAt.eq_def]
  split
  · rename_i rest heq
    injection heq with e1 _
    exact absurd e1 hc
  · rfl

/-- Branch 5 fires only when the unanchored regex matches somewhere. -/
theorem branchAttach_none (assetPathMap : List (Str × Str)) (rest : Str)
    (hs : attachSearch rest = none) : branchAttach assetPathMap rest = none := by
  unfold branchAttach
  rw [hs]

/-- At an inert char with no attachment match in sight, no recognizer fires. -/
theorem recognizeAt_none_of_inert (graph : LogseqGraph) (assetPathMap : List (Str × Str))
    (c : Char) (tail : Str) (hc : inertChar c)
    (hs : attachSearch (c :: tail) = none) :
    recognizeAt graph assetPathMap (c :: tail) = none := by
  have hb : ¬(c = '{' ∨ c = '(' ∨ c = '[' ∨ c = '#') := by
    intro hor
    rcases hor with h | h | h | h <;> simp [inertChar, h] at hc
  unfold recognizeAt
  rw [branchEmbed_none_of_head graph c tail (fun h => hb (Or.inl h)),
    branchRef_none_of_head graph c tail (fun h => hb (Or.inr (Or.inl h))),
    branchLink_none_of_head c tail (fun h => hb (Or.inr (Or.inr (Or.inl h))))
      (fun h => hb (Or.inr (Or.inr (Or.inr h)))),
    branchAttach_none assetPathMap _ hs]
  rw [show branchTag (c :: tail) = none from by
    unfold branchTag
    rw [tagMatchAt_none_of_head c tail (fun h => hb (Or.inr (Or.inr (Or.inr h))))]]
  rfl

/-- Scanning across a run of inert plain-text chars only grows the buffer. -/
theorem scanContent_inert_prefix (graph : LogseqGraph) (assetPathMap : List (Str × Str))
    (p rest0 buffer : Str) (hp : ∀ c ∈ p, inertChar c)
    (hs : attachSearch (p ++ rest0) = none) :
    scanContent graph assetPathMap (p ++ rest0) buffer =
      scanContent graph assetPathMap rest0 (buffer ++ p) := by
  induction p generalizing buffer with
  | nil => simp
  | cons c p ih =>
    have hrec := recognizeAt_none_of_inert graph assetPathMap c (p ++ rest0)
      (hp c (by simp)) hs
    rw [List.cons_append, scanContent]
    rw [hrec]
    rw [ih (buffer ++ [c]) (fun d hd => hp d (by simp [hd]))
      (attachSearch_none_tail c _ hs)]
    simp

/-- A fragment pushed right after a flush is in the final fragment list. -/
theorem mem_flushB (buffer : Str) (f : ContentFragment) (fs : List ContentFragment)
    (h : f ∈ fs) : f ∈ flushB buffer fs := by
  unfold flushB
  split
  · exact h
  · exact List.mem_cons_of_mem _ h

/-- First occurrence of a pattern placed directly after chars that all avoid
the pattern's head char. -/
theorem indexOfSub_clean_prefix (d : Char) (pr s tail0 : Str)
    (hclean : ∀ c ∈ s, c ≠ d) (hm : (d :: pr).isPrefixOf tail0) :
    indexOfSub (d :: pr) (s ++ tail0) = some s.length := by
  induction s with
  | nil =>
    cases tail0 with
    | nil => simp [List.isPrefixOf] at hm
    | cons t ts => simp [indexOfSub, hm]
  | cons a s ih =>
    have ha : a ≠ d := hclean a (by simp)
    rw [List.cons_append, indexOfSub]
    have : (d :: pr).isPrefixOf (a :: (s ++ tail0)) = false := by
      simp [List.isPrefixOf]
      intro h1
      exact absurd h1.symm ha
    rw [this]
    simp [ih (fun c hc => hclean c (by simp [hc]))]

/-- `substring(p.length, p.length + u.length)` after a known prefix. -/
theorem jsSubstring_extract (p u rest : Str) :
    jsSubstring (p ++ u ++ rest) p.length (u.length + p.length) = u := by
  unfold jsSubstring
  rw [max_eq_right (by omega), min_eq_left (by omega)]
  rw [Nat.add_comm u.length p.length, show p.length + u.length = (p ++ u).length by simp,
    List.take_left ((p ++ u)) rest, List.drop_left]

/-- Branch 2 fired on a well-formed `((uuid))` whose uuid has no `)`. -/
theorem recognizeAt_ref (graph : LogseqGraph) (assetPathMap : List (Str × Str))
    (u q : Str) (hu : ∀ c ∈ u, c ≠ ')') :
    recognizeAt graph assetPathMap ('(' :: '(' :: (u ++ ')' :: ')' :: q)) =
      some ({ t := str "r", v := refValue graph u, q := some u }, u.length + 4) := by
  unfold recognizeAt
  rw [branchEmbed_none_of_head graph '(' _ (by decide)]
  have hidx : indexOfSub (str "))") ('(' :: '(' :: (u ++ ')' :: ')' :: q)) =
      some (u.length + 2) := by
    have hclean : ∀ c ∈ '(' :: '(' :: u, c ≠ ')' := by
      intro c hc
      rw [List.mem_cons] at hc
      rcases hc with rfl | hc
      · decide
      rw [List.mem_cons] at hc
      rcases hc with rfl | hc
      · decide
      exact hu c hc
    have := indexOfSub_clean_prefix ')' (str ")") ('(' :: '(' :: u) (')' :: ')' :: q)
      hclean (by simp [str, List.isPrefixOf])
    simpa using this
  have hpre : (str "((").isPrefixOf ('(' :: '(' :: (u ++ ')' :: ')' :: q)) = true := by
    simp [str, List.isPrefixOf]
  unfold branchRef
  rw [if_pos hpre, hidx]
  have hsub : jsSubstring ('(' :: '(' :: (u ++ ')' :: ')' :: q)) 2 (u.length + 2) = u := by
    have := jsSubstring_extract (str "((") u (')' :: ')' :: q)
    simpa [str] using this
  simp only [hsub, Option.none_orElse, Option.some_orElse]

/-- Branch 1 fired on a well-formed `{{embed ((uuid))}}` whose uuid has no
`)`. -/
theorem recognizeAt_embed (graph : LogseqGraph) (assetPathMap : List (Str × Str))
    (u q : Str) (hu : ∀ c ∈ u, c ≠ ')') :
    recognizeAt graph assetPathMap
        (str "\x7b\x7bembed ((" ++ u ++ ')' :: ')' :: '}' :: '}' :: q) =
      some ({ t := str "r", v := refValue graph u, q := some u }, u.length + 14) := by
  unfold recognizeAt
  have hidx : indexOfSub (str "))\x7d\x7d")
      (str "\x7b\x7bembed ((" ++ u ++ ')' :: ')' :: '}' :: '}' :: q) =
      some (u.length + 10) := by
    have hclean : ∀ c ∈ str "\x7b\x7bembed ((" ++ u, c ≠ ')' := by
      intro c hc
      rcases List.mem_append.mp hc with hc | hc
      · fin_cases hc <;> decide
      · exact hu c hc
    have := indexOfSub_clean_prefix ')' (str ")\x7d\x7d") (str "\x7b\x7bembed ((" ++ u)
      (')' :: ')' :: '}' :: '}' :: q) hclean (by simp [str, List.isPrefixOf])
    simpa [Nat.add_comm] using this
  have hpre : (str "\x7b\x7bembed ((").isPrefixOf
      (str "\x7b\x7bembed ((" ++ u ++ ')' :: ')' :: '}' :: '}' :: q) = true := by
    rw [List.append_assoc]
    simp [List.isPrefixOf_iff_prefix]
  unfold branchEmbed
  rw [if_pos hpre, hidx]
  have hsub : jsSubstring (str "\x7b\x7bembed ((" ++ u ++ ')' :: ')' :: '}' :: '}' :: q)
      10 (u.length + 10) = u := by
    have := jsSubstring_extract (str "\x7b\x7bembed ((") u (')' :: ')' :: '}' :: '}' :: q)
    simpa [str] using this
  simp only [hsub, Option.some_orElse]

/-! ### "No recognized inline syntax" -/

/-- Whether some recognizer of the scan loop fires at this cursor position:
the match conditions of the five branches (independent of graph and asset
map, which only shape the produced fragment). -/
def recognizerFires (rest : Str) : Bool :=
  ((str "\x7b\x7bembed ((").isPrefixOf rest && (indexOfSub (str "))\x7d\x7d") rest).isSome) ||
  ((str "((").isPrefixOf rest && (indexOfSub (str "))") rest).isSome) ||
  (((str "[[").isPrefixOf rest || (str "#[[").isPrefixOf rest) &&
    (indexOfSub (str "]]") rest).isSome) ||
  (tagMatchAt rest).isSome ||
  (attachSearch rest).isSome

/-- A raw text contains no recognized inline syntax if no recognizer fires at
any position of the left-to-right scan. -/
def noInlineSyntax (s : Str) : Bool :=
  s.tails.all fun rest => !recognizerFires rest

/-- When no recognizer fires, the cascade returns `none` for every graph and
asset map. -/
theorem recognizeAt_none_of_not_fires (graph : LogseqGraph)
    (assetPathMap : List (Str × Str)) (rest : Str)
    (h : recognizerFires rest = false) :
    recognizeAt graph assetPathMap rest = none := by
  unfold recognizerFires at h
  simp only [Bool.or_eq_false_iff, Bool.and_eq_false_iff] at h
  obtain ⟨⟨⟨⟨h1, h2⟩, h3⟩, h4⟩, h5⟩ := h
  have hbe : branchEmbed graph rest = none := by
    unfold branchEmbed
    rcases h1 with h1 | h1
    · rw [h1]; rfl
    · split
      · cases hi : indexOfSub (str "))\x7d\x7d") rest with
        | some v => simp [hi] at h1
        | none => rfl
      · rfl
  have hbr : branchRef graph rest = none := by
    unfold branchRef
    rcases h2 with h2 | h2
    · rw [h2]; rfl
    · split
      · cases hi : indexOfSub (str "))") rest with
        | some v => simp [hi] at h2
        | none => rfl
      · rfl
  have hbl : branchLink rest = none := by
    unfold branchLink
    rcases h3 with h3 | h3
    · rw [h3.1, h3.2]; rfl
    · split
      · cases hi : indexOfSub (str "]]") rest with
        | some v => simp [hi] at h3
        | none => rfl
      · rfl
  have hbt : branchTag rest = none := by
    unfold branchTag
    cases ht : tagMatchAt rest with
    | some tok => simp [ht] at h4
    | none => rfl
  have hba : branchAttach assetPathMap rest = none := by
    cases hs : attachSearch rest with
    | some im => simp [hs] at h5
    | none => exact branchAttach_none assetPathMap rest hs
  unfold recognizeAt
  rw [hbe, hbr, hbl, hbt, hba]
  rfl

/-- Scanning a text in which no recognizer ever fires accumulates the whole
text into the plain-text buffer. -/
theorem scanContent_noSyntax (graph : LogseqGraph) (assetPathMap : List (Str × Str)) :
    ∀ (s buffer : Str), noInlineSyntax s = true →
      scanContent graph assetPathMap s buffer = flushB (buffer ++ s) [] := by
  intro s
  induction s with
  | nil => intro buffer _; rw [scanContent]; simp
  | cons c tail ih =>
    intro buffer hn
    unfold noInlineSyntax at hn
    rw [List.tails_cons] at hn
    simp only [List.all_cons, Bool.and_eq_true] at hn
    rw [scanContent,
      recognizeAt_none_of_not_fires graph assetPathMap (c :: tail) (by simpa using hn.1)]
    rw [ih (buffer ++ [c]) hn.2]
    simp

/-- One-step unfolding of the scan loop with a plain (non-dependent) match,
for rewriting. -/
theorem scanContent_cons (graph : LogseqGraph) (assetPathMap : List (Str × Str))
    (c : Char) (tail buffer : Str) :
    scanContent graph assetPathMap (c :: tail) buffer =
      match recognizeAt graph assetPathMap (c :: tail) with
      | some fa =>
        flushB buffer (fa.1 :: scanContent graph assetPathMap ((c :: tail).drop fa.2) [])
      | none => scanContent graph assetPathMap tail (buffer ++ [c]) := by
  rw [← scanFuel_eq graph assetPathMap (c :: tail).length (c :: tail) buffer le_rfl]
  rw [show (c :: tail).length = tail.length + 1 from by simp]
  rw [scanFuel]
  cases hrec : recognizeAt graph assetPathMap (c :: tail) with
  | some fa =>
    obtain ⟨frag, adv⟩ := fa
    have hadv := recognizeAt_adv_pos _ _ _ frag adv hrec
    simp only []
    rw [scanFuel_eq graph assetPathMap tail.length ((c :: tail).drop adv) [] (by simp; omega)]
  | none =>
    simp only []
    rw [scanFuel_eq graph assetPathMap tail.length tail (buffer ++ [c]) le_rfl]

/-- How the scan loop treats a well-formed `((uuid))` at the cursor: flush,
emit one reference fragment, continue after the closing `))`. -/
theorem scanContent_ref_step (graph : LogseqGraph) (assetPathMap : List (Str × Str))
    (u q buffer : Str) (hu : ∀ c ∈ u, c ≠ ')') :
    scanContent graph assetPathMap ('(' :: '(' :: (u ++ ')' :: ')' :: q)) buffer =
      flushB buffer ({ t := str "r", v := refValue graph u, q := some u }
        :: scanContent graph assetPathMap q []) := by
  rw [scanContent_cons]
  rw [recognizeAt_ref graph assetPathMap u q hu]
  have hdrop : ('(' :: '(' :: (u ++ ')' :: ')' :: q)).drop (u.length + 4) = q := by
    rw [show '(' :: '(' :: (u ++ ')' :: ')' :: q) = (('(' :: '(' :: u) ++ [')', ')']) ++ q by
      simp]
    exact List.drop_left' (by simp)
  simp only [hdrop]

/-- How the scan loop treats a well-formed `{{embed ((uuid))}}` at the
cursor. -/
theorem scanContent_embed_step (graph : LogseqGraph) (assetPathMap : List (Str × Str))
    (u q buffer : Str) (hu : ∀ c ∈ u, c ≠ ')') :
    scanContent graph assetPathMap
        (str "\x7b\x7bembed ((" ++ u ++ ')' :: ')' :: '}' :: '}' :: q) buffer =
      flushB buffer ({ t := str "r", v := refValue graph u, q := some u }
        :: scanContent graph assetPathMap q []) := by
  rw [show str "\x7b\x7bembed ((" ++ u ++ ')' :: ')' :: '}' :: '}' :: q =
    '{' :: (str "\x7bembed ((" ++ u ++ ')' :: ')' :: '}' :: '}' :: q) by simp [str]]
  rw [scanContent_cons]
  rw [show '{' :: (str "\x7bembed ((" ++ u ++ ')' :: ')' :: '}' :: '}' :: q) =
    str "\x7b\x7bembed ((" ++ u ++ ')' :: ')' :: '}' :: '}' :: q by simp [str]]
  rw [recognizeAt_embed graph assetPathMap u q hu]
  have hdrop : (str "\x7b\x7bembed ((" ++ u ++ ')' :: ')' :: '}' :: '}' :: q).drop
      (u.length + 14) = q := by
    rw [show str "\x7b\x7bembed ((" ++ u ++ ')' :: ')' :: '}' :: '}' :: q =
      ((str "\x7b\x7bembed ((" ++ u) ++ [')', ')', '}', '}']) ++ q by simp]
    exact List.drop_left' (by simp [str])
  simp only [hdrop]

/-- Flushing adds at most one fragment. -/
theorem flushB_length (buffer : Str) (fs : List ContentFragment) :
    (flushB buffer fs).length = fs.length + (if buffer.isEmpty then 0 else 1) := by
  unfold flushB
  split <;> simp

/-- The scan emits no more fragments than the input has chars (plus a pending
buffer flush): the fragment list is finite and linearly bounded. -/
theorem scanContent_length_le (graph : LogseqGraph) (assetPathMap : List (Str × Str)) :
    ∀ (n : Nat) (rest buffer : Str), rest.length ≤ n →
      (scanContent graph assetPathMap rest buffer).length ≤
        rest.length + (if buffer.isEmpty then 0 else 1) := by
  intro n
  induction n with
  | zero =>
    intro rest buffer h
    have : rest = [] := List.length_eq_zero.mp (Nat.le_zero.mp h)
    subst this
    rw [scanContent, flushB_length]
    simp
  | succ n ih =>
    intro rest buffer h
    cases rest with
    | nil =>
      rw [scanContent, flushB_length]
      simp
    | cons c tail =>
      rw [scanContent_cons]
      cases hrec : recognizeAt graph assetPathMap (c :: tail) with
      | some fa =>
        obtain ⟨frag, adv⟩ := fa
        have hadv := recognizeAt_adv_pos _ _ _ frag adv hrec
        simp only []
        rw [flushB_length]
        have hlen : ((c :: tail).drop adv).length ≤ n := by
          simp at h ⊢
          omega
        have := ih ((c :: tail).drop adv) [] hlen
        simp at this ⊢
        omega
      | none =>
        simp only []
        have := ih tail (buffer ++ [c]) (by simp at h ⊢; omega)
        simp at this ⊢
        split <;> omega

/-- A pattern whose head char never occurs in `s` occurs nowhere in `s`. -/
theorem indexOfSub_none_of_head_notin (d : Char) (pr s : Str)
    (h : ∀ c ∈ s, c ≠ d) : indexOfSub (d :: pr) s = none := by
  induction s with
  | nil => rfl
  | cons a s ih =>
    rw [indexOfSub, isPrefixOf_cons_false _ _ (Ne.symm (h a (by simp)))]
    simp [ih (fun c hc => h c (by simp [hc]))]

/-- Without a `[` anywhere, the attachment regex cannot match at the cursor. -/
theorem attachAt_none_of_no_lbracket (s : Str) (h : ∀ c ∈ s, c ≠ '[') :
    attachAt s = none := by
  rw [attachAt.eq_def]
  split
  · exact absurd rfl (h '[' (by simp))
  · exact absurd rfl (h '[' (by simp))
  · rfl

/-- Without a `[` anywhere, the attachment regex matches nowhere. -/
theorem attachSearch_none_of_no_lbracket (s : Str) (h : ∀ c ∈ s, c ≠ '[') :
    attachSearch s = none := by
  induction s with
  | nil => rfl
  | cons c rest ih =>
    rw [attachSearch, attachAt_none_of_no_lbracket _ h]
    simp [ih (fun d hd => h d (by simp [hd]))]

/-- Inert chars also exclude `[`. -/
theorem no_lbracket_of_inert (t : Str) (ht : ∀ c ∈ t, inertChar c = true) :
    ∀ c ∈ t, c ≠ '[' := by
  intro c hc heq
  have := ht c hc
  rw [heq] at this
  simp [inertChar] at this

/-- No recognizer fires anywhere in an all-inert text. -/
theorem recognizerFires_false_of_inert (t : Str) (ht : ∀ c ∈ t, inertChar c = true) :
    recognizerFires t = false := by
  cases t with
  | nil => decide
  | cons c tail =>
    have hb : ¬(c = '{' ∨ c = '(' ∨ c = '[' ∨ c = '#') := by
      intro hor
      have := ht c (by simp)
      rcases hor with h | h | h | h <;> simp [inertChar, h] at this
    unfold recognizerFires
    rw [show (str "\x7b\x7bembed ((") = '{' :: str "\x7bembed ((" from rfl,
      isPrefixOf_cons_false _ _ (fun h => hb (Or.inl h.symm)),
      show (str "((") = '(' :: str "(" from rfl,
      isPrefixOf_cons_false _ _ (fun h => hb (Or.inr (Or.inl h.symm))),
      show (str "[[") = '[' :: str "[" from rfl,
      isPrefixOf_cons_false _ _ (fun h => hb (Or.inr (Or.inr (Or.inl h.symm)))),
      show (str "#[[") = '#' :: str "[[" from rfl,
      isPrefixOf_cons_false _ _ (fun h => hb (Or.inr (Or.inr (Or.inr h.symm)))),
      tagMatchAt_none_of_head c tail (fun h => hb (Or.inr (Or.inr (Or.inr h)))),
      attachSearch_none_of_no_lbracket _ (no_lbracket_of_inert _ ht)]
    rfl

/-- An unclosed `((` followed by inert text that contains no `)`: no
recognizer ever fires during the scan. -/
theorem noInlineSyntax_unclosed_ref (v : Str)
    (hv : ∀ c ∈ v, inertChar c = true ∧ c ≠ ')') :
    noInlineSyntax ('(' :: '(' :: v) = true := by
  have hnp : ∀ c ∈ '(' :: '(' :: v, c ≠ ')' := by
    intro c hc
    rw [List.mem_cons] at hc
    rcases hc with rfl | hc
    · decide
    rw [List.mem_cons] at hc
    rcases hc with rfl | hc
    · decide
    exact (hv c hc).2
  have hnb : ∀ c ∈ '(' :: '(' :: v, c ≠ '[' := by
    intro c hc
    rw [List.mem_cons] at hc
    rcases hc with rfl | hc
    · decide
    rw [List.mem_cons] at hc
    rcases hc with rfl | hc
    · decide
    exact no_lbracket_of_inert v (fun d hd => (hv d hd).1) c hc
  unfold noInlineSyntax
  rw [List.tails_cons, List.tails_cons]
  simp only [List.all_cons, Bool.and_eq_true]
  refine ⟨?_, ?_, ?_⟩
  · -- at the "((" itself: the `((` branch sees no closing `))`
    unfold recognizerFires
    rw [show (str "\x7b\x7bembed ((") = '{' :: str "\x7bembed ((" from rfl,
      isPrefixOf_cons_false _ _ (by decide),
      show (str "))") = ')' :: str ")" from rfl,
      indexOfSub_none_of_head_notin ')' (str ")") ('(' :: '(' :: v) hnp,
      show (str "[[") = '[' :: str "[" from rfl,
      isPrefixOf_cons_false _ _ (by decide),
      show (str "#[[") = '#' :: str "[[" from rfl,
      isPrefixOf_cons_false _ _ (by decide),
      tagMatchAt_none_of_head _ _ (by decide),
      attachSearch_none_of_no_lbracket _ hnb]
    simp
  · -- at the second "(": no second recognizer can start either
    have hnp2 : ∀ c ∈ '(' :: v, c ≠ ')' := by
      intro c hc
      rcases List.mem_cons.mp hc with rfl | hc
      · decide
      · exact hnp c (by simp [hc])
    have hnb2 : ∀ c ∈ '(' :: v, c ≠ '[' := by
      intro c hc
      rcases List.mem_cons.mp hc with rfl | hc
      · decide
      · exact hnb c (by simp [hc])
    unfold recognizerFires
    rw [show (str "\x7b\x7bembed ((") = '{' :: str "\x7bembed ((" from rfl,
      isPrefixOf_cons_false _ _ (by decide),
      show (str "))") = ')' :: str ")" from rfl,
      indexOfSub_none_of_head_notin ')' (str ")") ('(' :: v) hnp2,
      show (str "[[") = '[' :: str "[" from rfl,
      isPrefixOf_cons_false _ _ (by decide),
      show (str "#[[") = '#' :: str "[[" from rfl,
      isPrefixOf_cons_false _ _ (by decide),
      tagMatchAt_none_of_head _ _ (by decide),
      attachSearch_none_of_no_lbracket ('(' :: v) hnb2]
    simp
  · rw [List.all_eq_true]
    intro t htails
    rw [List.mem_tails] at htails
    have hsub : ∀ c ∈ t, c ∈ v := fun c hc => htails.subset hc
    simp only [Bool.not_eq_eq_eq_not, Bool.not_true]
    exact recognizerFires_false_of_inert t (fun c hc => (hv c (hsub c hc)).1)

/-! ### Flattened positions in the parsed forest (for the hierarchy claim)

`flatLS` lists, in document (pre-)order, each block's level together with its
subtree size.  In a pre-order flattening the subtree of the node at position
`j` occupies exactly the positions `[j, j + size_j)`, so "the node at
position `j` is a proper ancestor of the node at position `i`" is the
arithmetic statement `j < i < j + size_j`. -/

/-- Pre-order flatten of a forest: (level, subtree size) per node. -/
def flatLS : List LogseqBlock → List (Nat × Nat)
  | [] => []
  | b :: bs => (b.level, 1 + forestSize b.children) :: (flatLS b.children ++ flatLS bs)
termination_by l => sizeOf l
decreasing_by
  all_goals (cases b; simp; try omega)

/-- Level at flattened position `i`. -/
def lvlAt (xs : List (Nat × Nat)) (i : Nat) : Nat := (xs.getD i (0, 0)).1

/-- Subtree size at flattened position `i`. -/
def szAt (xs : List (Nat × Nat)) (i : Nat) : Nat := (xs.getD i (0, 0)).2

/-- The node at position `j` is a proper ancestor of the node at position
`i`. -/
def AncPos (xs : List (Nat × Nat)) (i j : Nat) : Prop :=
  j < i ∧ i < j + szAt xs j

/-- `j` is the nearest preceding position whose level is strictly below
position `i`'s. -/
def NearestSmaller (xs : List (Nat × Nat)) (i j : Nat) : Prop :=
  j < i ∧ lvlAt xs j < lvlAt xs i ∧ ∀ k, j < k → k < i → lvlAt xs i ≤ lvlAt xs k

/-- The hierarchy discipline the parser maintains: every child sits strictly
deeper than its parent, and siblings (and top-level blocks) appear at
non-increasing levels. -/
def Strict : List LogseqBlock → Prop
  | [] => True
  | b :: bs =>
      (∀ c ∈ b.children, b.level < c.level) ∧
      (∀ b2 ∈ bs, b2.level ≤ b.level) ∧
      Strict b.children ∧ Strict bs
termination_by l => sizeOf l
decreasing_by
  all_goals (cases b; simp; try omega)

/-- The flattening has one entry per block (fuel-indexed induction). -/
theorem flatLS_length_aux :
    ∀ (n : Nat) (F : List LogseqBlock), forestSize F ≤ n →
      (flatLS F).length = forestSize F := by
  intro n
  induction n with
  | zero =>
    intro F h
    cases F with
    | nil => rw [flatLS, forestSize]; rfl
    | cons b bs => rw [forestSize] at h; omega
  | succ n ih =>
    intro F h
    cases F with
    | nil => rw [flatLS, forestSize]; rfl
    | cons b bs =>
      rw [flatLS, forestSize] at *
      simp only [List.length_cons, List.length_append]
      rw [ih b.children (by omega), ih bs (by omega)]
      omega

/-- The flattening has one entry per block. -/
theorem flatLS_length (F : List LogseqBlock) : (flatLS F).length = forestSize F :=
  flatLS_length_aux (forestSize F) F le_rfl

/-- Position 0 of a non-empty flattening. -/
theorem flatLS_getD_zero (b : LogseqBlock) (bs : List LogseqBlock) :
    (flatLS (b :: bs)).getD 0 (0, 0) = (b.level, 1 + forestSize b.children) := by
  rw [flatLS]
  rfl

/-- Positions inside the first tree's subtree. -/
theorem flatLS_getD_mid (b : LogseqBlock) (bs : List LogseqBlock) (i : Nat)
    (h1 : 1 ≤ i) (h2 : i < 1 + forestSize b.children) :
    (flatLS (b :: bs)).getD i (0, 0) = (flatLS b.children).getD (i - 1) (0, 0) := by
  rw [flatLS]
  cases i with
  | zero => omega
  | succ i =>
    simp only [List.getD_cons_succ, Nat.add_sub_cancel]
    rw [List.getD_append]
    rw [flatLS_length]
    omega

/-- Positions in the remaining trees. -/
theorem flatLS_getD_hi (b : LogseqBlock) (bs : List LogseqBlock) (i : Nat)
    (h : 1 + forestSize b.children ≤ i) :
    (flatLS (b :: bs)).getD i (0, 0) =
      (flatLS bs).getD (i - 1 - forestSize b.children) (0, 0) := by
  rw [flatLS]
  cases i with
  | zero => omega
  | succ i =>
    simp only [List.getD_cons_succ, Nat.add_sub_cancel]
    rw [List.getD_append_right]
    · rw [flatLS_length]
    · rw [flatLS_length]
      omega

/-- The discipline for a single tree. -/
def StrictT (b : LogseqBlock) : Prop :=
  (∀ c ∈ b.children, b.level < c.level) ∧ Strict b.children

/-- Unfolding of `Strict` at a cons. -/
theorem Strict_cons (b : LogseqBlock) (bs : List LogseqBlock) :
    Strict (b :: bs) ↔
      StrictT b ∧ (∀ b2 ∈ bs, b2.level ≤ b.level) ∧ Strict bs := by
  rw [Strict, StrictT]
  tauto

/-- `Strict` for the empty forest. -/
theorem Strict_nil : Strict [] := by
  rw [Strict]
  trivial

/-- A new last sibling whose level is at or below all previous ones keeps the
forest discipline. -/
theorem Strict_snoc (L : List LogseqBlock) (P : LogseqBlock)
    (hL : Strict L) (hP : StrictT P) (hle : ∀ b ∈ L, P.level ≤ b.level) :
    Strict (L ++ [P]) := by
  induction L with
  | nil =>
    simp only [List.nil_append]
    rw [Strict_cons]
    exact ⟨hP, by simp, Strict_nil⟩
  | cons b bs ih =>
    rw [List.cons_append, Strict_cons]
    rw [Strict_cons] at hL
    refine ⟨hL.1, ?_, ih hL.2.2 (fun x hx => hle x (by simp [hx]))⟩
    intro b2 hb2
    rcases List.mem_append.mp hb2 with hb2 | hb2
    · exact hL.2.1 b2 hb2
    · rw [List.mem_singleton] at hb2
      subst hb2
      exact hle b (by simp)

/-- The invariant of the parser's stack of open blocks, top first: every
accumulated child is strictly deeper than its frame and internally
disciplined, each frame's completed children are ordered, frames get strictly
shallower toward the top, and the frame below the top accumulated nothing
shallower than the top. -/
def StackOK : List Frame → Prop
  | [] => True
  | f :: rest =>
      (∀ c ∈ f.childrenRev, f.level < c.level ∧ StrictT c) ∧
      Strict f.childrenRev.reverse ∧
      (∀ g ∈ rest, g.level < f.level) ∧
      (∀ g, rest.head? = some g → ∀ c ∈ g.childrenRev, f.level ≤ c.level) ∧
      StackOK rest

/-- The full parser invariant. -/
def PInv (st : PState) : Prop :=
  StackOK st.stack ∧
  Strict st.doneRev.reverse ∧
  (∀ f, st.stack.head? = some f → f.childrenRev = []) ∧
  (∀ g, st.stack.getLast? = some g → ∀ r ∈ st.doneRev, g.level ≤ r.level) ∧
  (st.stack = [] → st.doneRev = [])

/-- Closing a frame with strictly deeper, disciplined, ordered children gives
a disciplined tree. -/
theorem StrictT_closeFrame (f : Frame)
    (h1 : ∀ c ∈ f.childrenRev, f.level < c.level ∧ StrictT c)
    (h2 : Strict f.childrenRev.reverse) : StrictT (closeFrame f) := by
  constructor
  · intro c hc
    rw [show (closeFrame f).children = f.childrenRev.reverse from rfl,
      List.mem_reverse] at hc
    exact (h1 c hc).1
  · exact h2

/-- What the pop cascade guarantees: it preserves the stack and done-list
discipline, leaves only frames strictly shallower than the new level on the
stack, and leaves nothing shallower than the new level among the children
accumulated where the new block will attach. -/
theorem popGEAux_ok (L : Nat) :
    ∀ (s : List Frame) (P : LogseqBlock) (d : List LogseqBlock),
      StackOK s → Strict d.reverse → StrictT P → L ≤ P.level →
      (∀ g ∈ s, g.level < P.level) →
      (∀ g, s.head? = some g → ∀ c ∈ g.childrenRev, P.level ≤ c.level) →
      (∀ g, s.getLast? = some g → ∀ r ∈ d, g.level ≤ r.level) →
      (s = [] → ∀ r ∈ d, P.level ≤ r.level) →
      StackOK (popGEAux L P s d).1 ∧ Strict (popGEAux L P s d).2.reverse ∧
      (∀ g ∈ (popGEAux L P s d).1, g.level < L) ∧
      (∀ g, (popGEAux L P s d).1.head? = some g →
        ∀ c ∈ g.childrenRev, L ≤ c.level) ∧
      (∀ g, (popGEAux L P s d).1.getLast? = some g →
        ∀ r ∈ (popGEAux L P s d).2, g.level ≤ r.level) ∧
      ((popGEAux L P s d).1 = [] → ∀ r ∈ (popGEAux L P s d).2, L ≤ r.level) := by
  intro s
  induction s with
  | nil =>
    intro P d hs hd hP hLP _ _ _ hemp
    rw [popGEAux]
    refine ⟨trivial, ?_, by simp, by simp, by simp, ?_⟩
    · simp only [List.reverse_cons]
      exact Strict_snoc d.reverse P hd hP
        (fun b hb => hemp rfl b (by simpa using hb))
    · intro _ r hr
      rcases List.mem_cons.mp hr with rfl | hr
      · exact hLP
      · exact le_trans hLP (hemp rfl r hr)
  | cons g rest ih =>
    intro P d hs hd hP hLP hlt hadj hlast hemp
    obtain ⟨hg1, hg2, hg3, hg4, hg5⟩ := hs
    have hPg : ∀ c ∈ P :: g.childrenRev, g.level < c.level ∧ StrictT c := by
      intro c hc
      rcases List.mem_cons.mp hc with rfl | hc
      · exact ⟨hlt g (by simp), hP⟩
      · exact hg1 c hc
    have hPg2 : Strict (P :: g.childrenRev).reverse := by
      simp only [List.reverse_cons]
      exact Strict_snoc g.childrenRev.reverse P hg2 hP
        (fun b hb => hadj g rfl b (by simpa using hb))
    rw [popGEAux]
    split
    · -- g is popped as well
      rename_i hLg
      have hcf : (closeFrame { g with childrenRev := P :: g.childrenRev }).level = g.level := rfl
      apply ih (closeFrame { g with childrenRev := P :: g.childrenRev }) d hg5 hd
      · exact StrictT_closeFrame _ hPg hPg2
      · exact hLg
      · intro h hh
        rw [hcf]
        exact hg3 h hh
      · intro h hh c hc
        rw [hcf]
        exact hg4 h hh c hc
      · intro h hh r hr
        cases rest with
        | nil => simp at hh
        | cons r2 rest2 =>
          apply hlast h _ r hr
          rw [List.getLast?_cons_cons]
          exact hh
      · intro hrest
        subst hrest
        intro r hr
        rw [hcf]
        exact hlast g rfl r hr
    · -- g stays: the pending block becomes its newest child
      rename_i hLg
      have hglt : g.level < L := by omega
      refine ⟨⟨hPg, hPg2, hg3, hg4, hg5⟩, hd, ?_, ?_, ?_, by simp⟩
      · intro h hh
        rcases List.mem_cons.mp hh with rfl | hh
        · exact hglt
        · exact lt_trans (hg3 h hh) hglt
      · intro h hh c hc
        simp only [List.head?_cons, Option.some.injEq] at hh
        subst hh
        rcases List.mem_cons.mp hc with rfl | hc
        · exact hLP
        · exact le_trans hLP (hadj g rfl c hc)
      · intro h hh r hr
        cases rest with
        | nil =>
          simp only [List.getLast?_singleton, Option.some.injEq] at hh
          subst hh
          exact hlast g rfl r hr
        | cons r2 rest2 =>
          apply hlast h _ r hr
          rw [List.getLast?_cons_cons]
          exact hh

/-- `popGE` starting from a full invariant state. -/
theorem popGE_ok (L : Nat) (s : List Frame) (d : List LogseqBlock)
    (hs : StackOK s) (hd : Strict d.reverse)
    (hhead : ∀ f, s.head? = some f → f.childrenRev = [])
    (hlast : ∀ g, s.getLast? = some g → ∀ r ∈ d, g.level ≤ r.level)
    (hemp : s = [] → d = []) :
    StackOK (popGE L s d).1 ∧ Strict (popGE L s d).2.reverse ∧
    (∀ g ∈ (popGE L s d).1, g.level < L) ∧
    (∀ g, (popGE L s d).1.head? = some g → ∀ c ∈ g.childrenRev, L ≤ c.level) ∧
    (∀ g, (popGE L s d).1.getLast? = some g →
      ∀ r ∈ (popGE L s d).2, g.level ≤ r.level) ∧
    ((popGE L s d).1 = [] → ∀ r ∈ (popGE L s d).2, L ≤ r.level) := by
  cases s with
  | nil =>
    rw [popGE]
    refine ⟨trivial, hd, by simp, by simp, by simp, ?_⟩
    intro _
    rw [hemp rfl]
    simp
  | cons f rest =>
    obtain ⟨hf1, hf2, hf3, hf4, hf5⟩ := hs
    have hfe : f.childrenRev = [] := hhead f rfl
    rw [popGE]
    split
    · rename_i hLf
      apply popGEAux_ok L rest (closeFrame f) d hf5 hd
      · refine ⟨?_, ?_⟩
        · intro c hc
          rw [show (closeFrame f).children = f.childrenRev.reverse from rfl, hfe] at hc
          simp at hc
        · rw [show (closeFrame f).children = f.childrenRev.reverse from rfl, hfe]
          exact Strict_nil
      · exact hLf
      · exact hf3
      · exact hf4
      · intro g hg r hr
        apply hlast g _ r hr
        cases rest with
        | nil => simp at hg
        | cons r2 rest2 =>
          rw [List.getLast?_cons_cons]
          exact hg
      · intro hrest
        subst hrest
        intro r hr
        exact hlast f rfl r hr
    · rename_i hLf
      have hflt : f.level < L := by omega
      refine ⟨⟨hf1, hf2, hf3, hf4, hf5⟩, hd, ?_, ?_, hlast, by simp⟩
      · intro g hg
        rcases List.mem_cons.mp hg with rfl | hg
        · exact hflt
        · exact lt_trans (hf3 g hg) hflt
      · intro g hg c hc
        simp only [List.head?_cons, Option.some.injEq] at hg
        subst hg
        rw [hfe] at hc
        simp at hc

/-- The end-of-input cascade produces a disciplined forest. -/
theorem popAllAux_ok :
    ∀ (s : List Frame) (P : LogseqBlock) (d : List LogseqBlock),
      StackOK s → Strict d.reverse → StrictT P →
      (∀ g ∈ s, g.level < P.level) →
      (∀ g, s.head? = some g → ∀ c ∈ g.childrenRev, P.level ≤ c.level) →
      (∀ g, s.getLast? = some g → ∀ r ∈ d, g.level ≤ r.level) →
      (s = [] → ∀ r ∈ d, P.level ≤ r.level) →
      Strict (popAllAux P s d) := by
  intro s
  induction s with
  | nil =>
    intro P d hs hd hP hlt hadj hlast hemp
    rw [popAllAux]
    simp only [List.reverse_cons]
    exact Strict_snoc d.reverse P hd hP (fun b hb => hemp rfl b (by simpa using hb))
  | cons g rest ih =>
    intro P d hs hd hP hlt hadj hlast hemp
    obtain ⟨hg1, hg2, hg3, hg4, hg5⟩ := hs
    have hPg : ∀ c ∈ P :: g.childrenRev, g.level < c.level ∧ StrictT c := by
      intro c hc
      rcases List.mem_cons.mp hc with rfl | hc
      · exact ⟨hlt g (by simp), hP⟩
      · exact hg1 c hc
    have hPg2 : Strict (P :: g.childrenRev).reverse := by
      simp only [List.reverse_cons]
      exact Strict_snoc g.childrenRev.reverse P hg2 hP
        (fun b hb => hadj g rfl b (by simpa using hb))
    rw [popAllAux]
    apply ih (closeFrame { g with childrenRev := P :: g.childrenRev }) d hg5 hd
    · exact StrictT_closeFrame _ hPg hPg2
    · exact hg3
    · exact hg4
    · intro h hh r hr
      apply hlast h _ r hr
      cases rest with
      | nil => simp at hh
      | cons r2 rest2 =>
        rw [List.getLast?_cons_cons]
        exact hh
    · intro hrest
      subst hrest
      intro r hr
      exact hlast g rfl r hr

/-- Every line handler preserves the parser invariant. -/
theorem stepLine_pinv (st : PState) (line : Str) (h : PInv st) :
    PInv (stepLine st line) := by
  obtain ⟨hs, hd, hhead, hlast, hemp⟩ := h
  unfold stepLine
  dsimp only
  split
  · exact ⟨hs, hd, hhead, hlast, hemp⟩
  split
  · split
    · exact ⟨hs, hd, hhead, hlast, hemp⟩
    · exact ⟨hs, hd, hhead, hlast, hemp⟩
  split
  · -- a block line: pop then push
    rcases hpop : popGE (line.takeWhile isJsWs).length st.stack st.doneRev with ⟨s1, d1⟩
    have hout := popGE_ok (line.takeWhile isJsWs).length st.stack st.doneRev
      hs hd hhead hlast hemp
    rw [hpop] at hout
    obtain ⟨ho1, ho2, ho3, ho4, ho5, ho6⟩ := hout
    simp only [hpop]
    refine ⟨⟨by simp, Strict_nil, ho3, ho4, ho1⟩, ho2, ?_, ?_, by simp⟩
    · intro f hf
      simp only [List.head?_cons, Option.some.injEq] at hf
      subst hf
      rfl
    · intro g hg r hr
      cases s1 with
      | nil =>
        simp only [List.getLast?_singleton, Option.some.injEq] at hg
        subst hg
        exact ho6 rfl r hr
      | cons f2 rest2 =>
        apply ho5 g _ r hr
        rw [List.getLast?_cons_cons] at hg
        exact hg
  · -- a continuation line: only the top frame's scalar fields change
    rcases hstack : st.stack with _ | ⟨f, rest⟩
    · dsimp only
      exact ⟨hs, hd, hhead, hlast, hemp⟩
    · rw [hstack] at hs hhead hlast
      have hkeep : ∀ f2 : Frame, f2.level = f.level → f2.childrenRev = f.childrenRev →
          PInv { pageProps := st.pageProps, doneRev := st.doneRev, stack := f2 :: rest,
                 isFirstBlock := st.isFirstBlock } := by
        intro f2 hlvl hch
        obtain ⟨h1, h2, h3, h4, h5⟩ := hs
        refine ⟨⟨?_, ?_, ?_, ?_, h5⟩, hd, ?_, ?_, by simp⟩
        · rw [hch, hlvl]; exact h1
        · rw [hch]; exact h2
        · rw [hlvl]; exact h3
        · rw [hlvl]; exact h4
        · intro f3 hf3
          simp only [List.head?_cons, Option.some.injEq] at hf3
          subst hf3
          rw [hch]
          exact hhead f rfl
        · intro g hg r hr
          cases rest with
          | nil =>
            simp only [List.getLast?_singleton, Option.some.injEq] at hg
            subst hg
            rw [hlvl]
            exact hlast f rfl r hr
          | cons r2 rest2 =>
            apply hlast g _ r hr
            rw [List.getLast?_cons_cons] at hg
            rw [List.getLast?_cons_cons]
            exact hg
      cases hid : matchId (jsTrim line) with
      | some v => exact hkeep _ rfl rfl
      | none =>
        cases hprop : matchProperty (jsTrim line) with
        | some kv => exact hkeep _ rfl rfl
        | none =>
          refine ⟨by rw [hstack]; exact hs, hd, by rw [hstack]; exact hhead,
            by rw [hstack]; exact hlast, hemp⟩

/-- Folding the line handler keeps the invariant. -/
theorem foldl_stepLine_pinv (lines : List Str) :
    ∀ st : PState, PInv st → PInv (lines.foldl stepLine st) := by
  induction lines with
  | nil => intro st h; exact h
  | cons l ls ih =>
    intro st h
    exact ih (stepLine st l) (stepLine_pinv st l h)

/-- The blocks of a parsed page always form a disciplined forest. -/
theorem parseLogseqFile_strict (file : LogseqFile) :
    Strict (parseLogseqFile file).blocks := by
  unfold parseLogseqFile
  dsimp only
  have hinv : PInv ((splitLines file.content).foldl stepLine ⟨[], [], [], true⟩) :=
    foldl_stepLine_pinv (splitLines file.content) ⟨[], [], [], true⟩
      ⟨trivial, Strict_nil, by simp, by simp, fun _ => rfl⟩
  obtain ⟨hs, hd, hhead, hlast, hemp⟩ := hinv
  rcases hstack : ((splitLines file.content).foldl stepLine ⟨[], [], [], true⟩).stack
    with _ | ⟨f, rest⟩
  · rw [hstack] at hemp
    rw [popAll, hemp rfl]
    exact Strict_nil
  · rw [hstack] at hs hhead hlast
    obtain ⟨hf1, hf2, hf3, hf4, hf5⟩ := hs
    have hfe : f.childrenRev = [] := hhead f rfl
    rw [popAll]
    apply popAllAux_ok rest (closeFrame f) _ hf5 hd
    · refine ⟨?_, ?_⟩
      · intro c hc
        rw [show (closeFrame f).children = f.childrenRev.reverse from rfl, hfe] at hc
        simp at hc
      · rw [show (closeFrame f).children = f.childrenRev.reverse from rfl, hfe]
        exact Strict_nil
    · exact hf3
    · exact hf4
    · intro g hg r hr
      apply hlast g _ r hr
      cases rest with
      | nil => simp at hg
      | cons r2 rest2 =>
        rw [List.getLast?_cons_cons]
        exact hg
    · intro hrest
      subst hrest
      intro r hr
      exact hlast f rfl r hr

/-- Region translations for `lvlAt`/`szAt`. -/
theorem lvlAt_zero (b : LogseqBlock) (bs : List LogseqBlock) :
    lvlAt (flatLS (b :: bs)) 0 = b.level := by
  unfold lvlAt
  rw [flatLS_getD_zero]

/-- Subtree size at the root position. -/
theorem szAt_zero (b : LogseqBlock) (bs : List LogseqBlock) :
    szAt (flatLS (b :: bs)) 0 = 1 + forestSize b.children := by
  unfold szAt
  rw [flatLS_getD_zero]

/-- Level inside the first tree's subtree region. -/
theorem lvlAt_mid (b : LogseqBlock) (bs : List LogseqBlock) (i : Nat)
    (h1 : 1 ≤ i) (h2 : i < 1 + forestSize b.children) :
    lvlAt (flatLS (b :: bs)) i = lvlAt (flatLS b.children) (i - 1) := by
  unfold lvlAt
  rw [flatLS_getD_mid b bs i h1 h2]

/-- Size inside the first tree's subtree region. -/
theorem szAt_mid (b : LogseqBlock) (bs : List LogseqBlock) (i : Nat)
    (h1 : 1 ≤ i) (h2 : i < 1 + forestSize b.children) :
    szAt (flatLS (b :: bs)) i = szAt (flatLS b.children) (i - 1) := by
  unfold szAt
  rw [flatLS_getD_mid b bs i h1 h2]

/-- Level in the later-trees region. -/
theorem lvlAt_hi (b : LogseqBlock) (bs : List LogseqBlock) (i : Nat)
    (h : 1 + forestSize b.children ≤ i) :
    lvlAt (flatLS (b :: bs)) i = lvlAt (flatLS bs) (i - 1 - forestSize b.children) := by
  unfold lvlAt
  rw [flatLS_getD_hi b bs i h]

/-- Size in the later-trees region. -/
theorem szAt_hi (b : LogseqBlock) (bs : List LogseqBlock) (i : Nat)
    (h : 1 + forestSize b.children ≤ i) :
    szAt (flatLS (b :: bs)) i = szAt (flatLS bs) (i - 1 - forestSize b.children) := by
  unfold szAt
  rw [flatLS_getD_hi b bs i h]

/-- Every subtree interval stays inside the flattening. -/
theorem flatLS_fits_aux :
    ∀ (n : Nat) (F : List LogseqBlock), forestSize F ≤ n →
      ∀ j, j < forestSize F → j + szAt (flatLS F) j ≤ forestSize F := by
  intro n
  induction n with
  | zero =>
    intro F h j hj
    omega
  | succ n ih =>
    intro F h j hj
    cases F with
    | nil => rw [forestSize] at hj; omega
    | cons b bs =>
      rw [forestSize] at h hj ⊢
      rcases Nat.lt_or_ge j 1 with hj1 | hj1
      · have : j = 0 := by omega
        subst this
        rw [szAt_zero]
        omega
      rcases Nat.lt_or_ge j (1 + forestSize b.children) with hj2 | hj2
      · rw [szAt_mid b bs j hj1 hj2]
        have := ih b.children (by omega) (j - 1) (by omega)
        omega
      · rw [szAt_hi b bs j hj2]
        have := ih bs (by omega) (j - 1 - forestSize b.children) (by omega)
        omega

/-- Every subtree interval stays inside the flattening. -/
theorem flatLS_fits (F : List LogseqBlock) (j : Nat) (hj : j < forestSize F) :
    j + szAt (flatLS F) j ≤ forestSize F :=
  flatLS_fits_aux (forestSize F) F le_rfl j hj

/-- Subtree intervals are well-nested: a descendant's interval lies inside
its ancestor's. -/
theorem flatLS_nest_aux :
    ∀ (n : Nat) (F : List LogseqBlock), forestSize F ≤ n →
      ∀ i j, i < forestSize F → AncPos (flatLS F) i j →
        i + szAt (flatLS F) i ≤ j + szAt (flatLS F) j := by
  intro n
  induction n with
  | zero =>
    intro F h i j hi _
    omega
  | succ n ih =>
    intro F h i j hi hanc
    obtain ⟨hji, hisz⟩ := hanc
    cases F with
    | nil => rw [forestSize] at hi; omega
    | cons b bs =>
      rw [forestSize] at h hi
      have hjlt : j < forestSize (b :: bs) := by rw [forestSize]; omega
      rcases Nat.lt_or_ge j 1 with hj1 | hj1
      · have hj0 : j = 0 := by omega
        subst hj0
        rw [szAt_zero] at hisz ⊢
        have hi1 : 1 ≤ i := by omega
        have hi2 : i < 1 + forestSize b.children := by omega
        rw [szAt_mid b bs i hi1 hi2]
        have := flatLS_fits b.children (i - 1) (by omega)
        omega
      rcases Nat.lt_or_ge j (1 + forestSize b.children) with hj2 | hj2
      · -- j in the first subtree: i is too
        rw [szAt_mid b bs j hj1 hj2] at hisz ⊢
        have hjfit := flatLS_fits b.children (j - 1) (by omega)
        have hi2 : i < 1 + forestSize b.children := by omega
        have hi1 : 1 ≤ i := by omega
        rw [szAt_mid b bs i hi1 hi2]
        have := ih b.children (by omega) (i - 1) (j - 1) (by omega)
          ⟨by omega, by omega⟩
        omega
      · -- j among the later trees: i is too
        rw [szAt_hi b bs j hj2] at hisz ⊢
        have hi2 : 1 + forestSize b.children ≤ i := by omega
        rw [szAt_hi b bs i hi2]
        have := ih bs (by omega) (i - 1 - forestSize b.children)
          (j - 1 - forestSize b.children) (by omega)
          ⟨by omega, by omega⟩
        omega

/-- In a disciplined forest whose roots all lie strictly above `q`, every
flattened entry lies strictly above `q`. -/
theorem flatLS_mem_gt_aux :
    ∀ (n : Nat) (F : List LogseqBlock), forestSize F ≤ n → Strict F →
      ∀ q, (∀ r ∈ F, q < r.level) → ∀ e ∈ flatLS F, q < e.1 := by
  intro n
  induction n with
  | zero =>
    intro F h _ q _ e he
    have : forestSize F = 0 := by omega
    have hlen : (flatLS F).length = 0 := by rw [flatLS_length, this]
    rw [List.length_eq_zero.mp hlen] at he
    simp at he
  | succ n ih =>
    intro F h hS q hq e he
    cases F with
    | nil => rw [flatLS] at he; simp at he
    | cons b bs =>
      rw [forestSize] at h
      rw [Strict_cons] at hS
      rw [flatLS] at he
      rcases List.mem_cons.mp he with rfl | he
      · exact hq b (by simp)
      rcases List.mem_append.mp he with he | he
      · exact ih b.children (by omega) hS.1.2 q
          (fun r hr => lt_trans (hq b (by simp)) (hS.1.1 r hr)) e he
      · exact ih bs (by omega) hS.2.2 q (fun r hr => hq r (by simp [hr])) e he

/-- Getting a mid-region level as a member of the children's flattening. -/
theorem lvl_mid_gt (b : LogseqBlock) (bs : List LogseqBlock) (i : Nat)
    (hS : Strict (b :: bs)) (h1 : 1 ≤ i) (h2 : i < 1 + forestSize b.children) :
    b.level < lvlAt (flatLS (b :: bs)) i := by
  rw [lvlAt_mid b bs i h1 h2]
  rw [Strict_cons] at hS
  have hlen : i - 1 < (flatLS b.children).length := by
    rw [flatLS_length]
    omega
  have hmem : (flatLS b.children).getD (i - 1) (0, 0) ∈ flatLS b.children := by
    rw [List.getD_eq_getElem _ (0, 0) hlen]
    exact List.getElem_mem hlen
  exact flatLS_mem_gt_aux (forestSize b.children) b.children le_rfl hS.1.2 b.level
    hS.1.1 _ hmem

/-- Proper ancestors always have strictly smaller levels (in particular a
block is never a child of a block at the same level). -/
theorem flatLS_anc_lvl_aux :
    ∀ (n : Nat) (F : List LogseqBlock), forestSize F ≤ n → Strict F →
      ∀ i j, i < forestSize F → AncPos (flatLS F) i j →
        lvlAt (flatLS F) j < lvlAt (flatLS F) i := by
  intro n
  induction n with
  | zero =>
    intro F h _ i j hi _
    omega
  | succ n ih =>
    intro F h hS i j hi hanc
    obtain ⟨hji, hisz⟩ := hanc
    cases F with
    | nil => rw [forestSize] at hi; omega
    | cons b bs =>
      rw [forestSize] at h hi
      rcases Nat.lt_or_ge j 1 with hj1 | hj1
      · have hj0 : j = 0 := by omega
        subst hj0
        rw [szAt_zero] at hisz
        rw [lvlAt_zero]
        exact lvl_mid_gt b bs i hS (by omega) (by omega)
      rcases Nat.lt_or_ge j (1 + forestSize b.children) with hj2 | hj2
      · -- both inside the first subtree
        rw [szAt_mid b bs j hj1 hj2] at hisz
        have hjfit := flatLS_fits b.children (j - 1) (by omega)
        have hi1 : 1 ≤ i := by omega
        have hi2 : i < 1 + forestSize b.children := by omega
        rw [lvlAt_mid b bs j hj1 hj2, lvlAt_mid b bs i hi1 hi2]
        rw [Strict_cons] at hS
        exact ih b.children (by omega) hS.1.2 (i - 1) (j - 1) (by omega)
          ⟨by omega, by omega⟩
      · -- both among the later trees
        rw [szAt_hi b bs j hj2] at hisz
        have hi2 : 1 + forestSize b.children ≤ i := by omega
        rw [lvlAt_hi b bs j hj2, lvlAt_hi b bs i hi2]
        rw [Strict_cons] at hS
        exact ih bs (by omega) hS.2.2 (i - 1 - forestSize b.children)
          (j - 1 - forestSize b.children) (by omega) ⟨by omega, by omega⟩

/-- The nearest preceding strictly-smaller position is an ancestor. -/
theorem flatLS_nearest_aux :
    ∀ (n : Nat) (F : List LogseqBlock), forestSize F ≤ n → Strict F →
      ∀ i j, i < forestSize F → NearestSmaller (flatLS F) i j →
        AncPos (flatLS F) i j := by
  intro n
  induction n with
  | zero =>
    intro F h _ i j hi _
    omega
  | succ n ih =>
    intro F h hS i j hi hns
    obtain ⟨hji, hlvl, hmin⟩ := hns
    cases F with
    | nil => rw [forestSize] at hi; omega
    | cons b bs =>
      rw [forestSize] at h hi
      rcases Nat.lt_or_ge i (1 + forestSize b.children) with hiMid | hiHi
      · -- i lies inside the first tree's subtree (i = 0 is impossible: j < i)
        have hi1 : 1 ≤ i := by omega
        rcases Nat.lt_or_ge j 1 with hj1 | hj1
        · have hj0 : j = 0 := by omega
          subst hj0
          exact ⟨by omega, by rw [szAt_zero]; omega⟩
        · -- j inside the subtree as well: recurse
          have hj2 : j < 1 + forestSize b.children := by omega
          have hrec := ih b.children (by omega) ((Strict_cons b bs).mp hS).1.2
            (i - 1) (j - 1) (by omega) ⟨by omega, ?_, ?_⟩
          · refine ⟨by omega, ?_⟩
            rw [szAt_mid b bs j hj1 hj2]
            have := hrec.2
            omega
          · rw [← lvlAt_mid b bs j hj1 hj2, ← lvlAt_mid b bs i hi1 hiMid]
            exact hlvl
          · intro k hk1 hk2
            have hmk := lvlAt_mid b bs (k + 1) (by omega) (by omega)
            rw [show k + 1 - 1 = k from by omega] at hmk
            have := hmin (k + 1) (by omega) (by omega)
            rw [hmk, lvlAt_mid b bs i hi1 hiMid] at this
            exact this
      · -- i lies among the later trees
        have hR : 1 ≤ forestSize bs := by omega
        cases bs with
        | nil => rw [forestSize] at hR; omega
        | cons b2 bs2 =>
          have hb2 : b2.level ≤ b.level := ((Strict_cons b _).mp hS).2.1 b2 (by simp)
          have hheadlvl : lvlAt (flatLS (b :: b2 :: bs2)) (1 + forestSize b.children) =
              b2.level := by
            rw [lvlAt_hi b _ _ le_rfl]
            simp only [Nat.sub_sub, Nat.sub_self]
            rw [lvlAt_zero]
          -- the nearest smaller cannot lie inside the first tree or at its root
          have hjhi : 1 + forestSize b.children ≤ j := by
            by_contra hjlo
            push_neg at hjlo
            have hile : lvlAt (flatLS (b :: b2 :: bs2)) i ≤ b.level := by
              rcases Nat.lt_or_ge (1 + forestSize b.children) i with hlt | hge
              · have hk := hmin (1 + forestSize b.children) (by omega) hlt
                rw [hheadlvl] at hk
                omega
              · have hieq : i = 1 + forestSize b.children := by omega
                rw [hieq, hheadlvl]
                exact hb2
            rcases Nat.lt_or_ge j 1 with hj1 | hj1
            · have hj0 : j = 0 := by omega
              subst hj0
              rw [lvlAt_zero] at hlvl
              omega
            · have := lvl_mid_gt b (b2 :: bs2) j hS hj1 hjlo
              omega
          -- recurse into the later trees
          have hrec := ih (b2 :: bs2) (by omega) ((Strict_cons b _).mp hS).2.2
            (i - 1 - forestSize b.children) (j - 1 - forestSize b.children)
            (by omega) ⟨by omega, ?_, ?_⟩
          · refine ⟨by omega, ?_⟩
            rw [szAt_hi b _ j hjhi]
            have := hrec.2
            omega
          · rw [← lvlAt_hi b _ j hjhi, ← lvlAt_hi b _ i hiHi]
            exact hlvl
          · intro k hk1 hk2
            have hmk := lvlAt_hi b (b2 :: bs2) (k + 1 + forestSize b.children) (by omega)
            rw [show k + 1 + forestSize b.children - 1 - forestSize b.children = k from by
              omega] at hmk
            have := hmin (k + 1 + forestSize b.children) (by omega) (by omega)
            rw [hmk, lvlAt_hi b (b2 :: bs2) i hiHi] at this
            exact this

/-! ## The importer against an abstract host (importer.ts lines 287–379) -/

/-- Orca block ids. -/
abbrev DbId := Nat

/-- A user-visible notification: level and message. -/
abbrev Notif := Str × Str

/-- An Orca `Repr` as built by `convertLogseqBlocksToReprs`.  (The JS object
omits `properties` when the block has none; here the field is simply the
possibly-empty list.) -/
structure OrcaRepr where
  type : Str
  content : List ContentFragment
  indent : Nat
  properties : List (Str × Str)
deriving Repr

/-- `convertLogseqBlocksToReprs` from importer.ts: flatten the block tree to
`Repr`s in pre-order, tracking the indent. -/
def convertLogseqBlocksToReprs :
    List LogseqBlock → LogseqGraph → List (Str × Str) → Nat → List OrcaRepr
  | [], _, _, _ => []
  | b :: bs, graph, assetPathMap, currentIndent =>
    let contentFragments := parseContentToFragments b.content graph assetPathMap
    let r : OrcaRepr :=
      { type := str "text"
        content := if contentFragments.length > 0 then contentFragments
                   else [{ t := str "t", v := [] }]
        indent := currentIndent
        properties := b.properties }
    r :: (if b.children.length > 0 then
            convertLogseqBlocksToReprs b.children graph assetPathMap (currentIndent + 1)
          else []) ++
      convertLogseqBlocksToReprs bs graph assetPathMap currentIndent
termination_by l _ _ _ => sizeOf l
decreasing_by
  all_goals (cases b; simp; try omega)

/-- The host commands the per-page creation issues. -/
inductive HostCall where
  | insertBlock (title : Str)
  | setProperties (id : DbId) (props : List (Str × Str))
  | getBlock (id : DbId)
  | batchInsertReprs (id : DbId) (reprs : List OrcaRepr)

/-- A host reply: a thrown error, or a JS return value (`none` models
`null`/`undefined`). -/
inductive HostReply where
  | throwErr (msg : Str)
  | ret (id : Option DbId)

/-- An abstract Orca host: a deterministic state machine answering editor
commands (the `orca.commands` / `orca.invokeBackend` surface). -/
structure Host (σ : Type) where
  exec : σ → HostCall → σ × HostReply

/-- The body of the per-page `try` block of `importPageBatch`: create the
page heading block, set page properties, fetch the created block, insert the
converted child `Repr`s.  Local `throw`s and host throws both surface as
`Except.error`; the caller catches. -/
def pageAttempt {σ : Type} (host : Host σ) (graph : LogseqGraph)
    (assetPathMap : List (Str × Str)) (s : σ) (page : LogseqPage) :
    σ × Except Str Unit :=
  let pageProperties := page.properties
  let (s1, r1) := host.exec s (.insertBlock page.name)
  match r1 with
  | .throwErr e => (s1, .error e)
  | .ret idOpt =>
    match idOpt with
    | none => (s1, .error (str "创建页面失败: \"" ++ page.name ++ str "\""))
    | some pageBlockId =>
      -- JS truthiness: `if (!pageBlockId) throw ...` also fires on id 0
      if pageBlockId = 0 then
        (s1, .error (str "创建页面失败: \"" ++ page.name ++ str "\""))
      else
        let (s2, r2) :=
          if pageProperties.length > 0 then
            host.exec s1 (.setProperties pageBlockId pageProperties)
          else (s1, .ret none)
        match r2 with
        | .throwErr e => (s2, .error e)
        | .ret _ =>
          let (s3, r3) := host.exec s2 (.getBlock pageBlockId)
          match r3 with
          | .throwErr e => (s3, .error e)
          | .ret pageBlock =>
            match pageBlock with
            | none => (s3, .error (str "获取页面块失败: \"" ++ page.name ++ str "\""))
            | some pb =>
              if page.blocks.length > 0 then
                let blockReprs := convertLogseqBlocksToReprs page.blocks graph assetPathMap 0
                if blockReprs.length > 0 then
                  let (s4, r4) := host.exec s3 (.batchInsertReprs pb blockReprs)
                  match r4 with
                  | .throwErr e => (s4, .error e)
                  | .ret _ => (s4, .ok ())
                else (s3, .ok ())
              else (s3, .ok ())

/-- The `for (const page of pagesToImport)` loop inside `invokeGroup`: each
page's creation runs in its own try/catch; a failure produces the error
notification naming the page and the loop continues with the next page. -/
def importPageLoop {σ : Type} (host : Host σ) (graph : LogseqGraph)
    (assetPathMap : List (Str × Str)) : σ → List LogseqPage → σ × List Notif
  | s, [] => (s, [])
  | s, page :: rest =>
    let (s1, r) := pageAttempt host graph assetPathMap s page
    let notifsHere : List Notif :=
      match r with
      | .error e => [(str "error", str "导入页面 \"" ++ page.name ++ str "\" 失败: " ++ e)]
      | .ok _ => []
    let (s2, notifsRest) := importPageLoop host graph assetPathMap s1 rest
    (s2, notifsHere ++ notifsRest)

/-! ### The asset migrator (importer.ts lines 107–177) -/

/-- An opaque file object obtained from the assets directory. -/
abbrev FileObj := Str

/-- The shape of a successful `upload-assets` backend response. -/
structure UploadResp where
  uploaded : List Str
  failed : List Str

/-- The environment `preUploadAssetsAndGetPathMap` runs against: the outcome
of opening the `assets` directory (with per-file lookups inside), and the
`upload-assets` backend call. -/
structure AssetsEnv where
  assetsDir : Except Str (Str → Except Str FileObj)
  upload : List FileObj → Except Str (Option UploadResp)

/-- Decimal rendering for notification messages. -/
def natToStr (n : Nat) : Str := (Nat.repr n).data

/-- `matchAll(new RegExp(ATTACHMENT_REGEX, 'g'))`: the successive
non-overlapping leftmost matches. -/
def allAttachMatches (s : Str) : List AttachMatch :=
  match h : attachSearch s with
  | none => []
  | some im => im.2 :: allAttachMatches (s.drop (im.1 + im.2.full.length))
termination_by s.length
decreasing_by
  have h1 := attachSearch_full_pos s im.1 im.2 h
  have h2 : s ≠ [] := by
    intro he
    subst he
    rw [show attachSearch [] = none from rfl] at h
    cases h
  cases s with
  | nil => exact absurd rfl h2
  | cons c tail => simp; omega

/-- JS `Set.prototype.add`: append if not already present. -/
def setAdd (x : Str) (l : List Str) : List Str :=
  if x ∈ l then l else l ++ [x]

/-- `collectPaths` of `preUploadAssetsAndGetPathMap`: every attachment match
in every block whose path starts with `../assets/`, deduplicated in
insertion order. -/
def collectAssetPathsBlocks : List LogseqBlock → List Str → List Str
  | [], acc => acc
  | b :: bs, acc =>
    let acc1 := (allAttachMatches b.content).foldl
      (fun a m => if (str "../assets/").isPrefixOf m.path then setAdd m.path a else a) acc
    let acc2 := if b.children.length > 0 then collectAssetPathsBlocks b.children acc1 else acc1
    collectAssetPathsBlocks bs acc2
termination_by l _ => sizeOf l
decreasing_by
  all_goals (cases b; simp; try omega)

/-- All asset paths discovered across the batch's pages. -/
def collectAssetPaths (pagesToImport : List LogseqPage) : List Str :=
  pagesToImport.foldl (fun acc p => collectAssetPathsBlocks p.blocks acc) []

/-- `preUploadAssetsAndGetPathMap` from importer.ts, returning the path map
together with the notifications emitted and the upload calls issued. -/
def preUploadAssetsAndGetPathMap (env : AssetsEnv) (pagesToImport : List LogseqPage) :
    List (Str × Str) × List Notif × List (List FileObj) :=
  let allAssetPaths := collectAssetPaths pagesToImport
  if allAssetPaths.length = 0 then ([], [], [])
  else
    match env.assetsDir with
    | .error _ =>
      ([], [(str "error", str "无法打开 'assets' 文件夹，附件迁移失败。")], [])
    | .ok getFile =>
      let resolved := allAssetPaths.foldl
        (fun acc p =>
          match getFile (p.drop 10) with
          | .ok f => (acc.1 ++ [f], acc.2 ++ [p])
          | .error _ => acc)
        ([], [])
      let filesToUpload := resolved.1
      let pathsToUpload := resolved.2
      if filesToUpload.length > 0 then
        let startNotif : Notif :=
          (str "info", str "准备上传 " ++ natToStr filesToUpload.length ++ str " 个附件...")
        match env.upload filesToUpload with
        | .error _ =>
          -- the throw propagates to the outer catch, which notifies and
          -- falls through to `return assetPathMap` (still empty here)
          ([], [startNotif, (str "error", str "无法打开 'assets' 文件夹，附件迁移失败。")],
            [filesToUpload])
        | .ok none => ([], [startNotif], [filesToUpload])
        | .ok (some result) =>
          let assetPathMap := (List.zip pathsToUpload result.uploaded).foldl
            (fun m kv => objSet kv.1 kv.2 m) []
          let warns : List Notif :=
            if result.failed.length > 0 then
              [(str "warn", natToStr result.failed.length ++ str " 个附件上传失败。")]
            else []
          (assetPathMap, startNotif :: warns, [filesToUpload])
      else ([], [], [])

/-! ### The driving batch loop (index.ts lines 49–55) -/

/-- What the loop makes observable: batch-importer invocations and progress
notifications. -/
inductive ImportEvent where
  | batchCall (batch : List LogseqPage)
  | progress (done total : Nat)

/-- `for (let i = 0; i < N; i += BATCH_SIZE)` of `startImportProcess`:
`slice(i, i + 50)`, import, then notify `min(i+50, N) / N`. -/
def importLoopFrom (allPages : List LogseqPage) (i : Nat) : List ImportEvent :=
  if i < allPages.length then
    ImportEvent.batchCall ((allPages.drop i).take 50) ::
    ImportEvent.progress (min (i + 50) allPages.length) allPages.length ::
    importLoopFrom allPages (i + 50)
  else []
termination_by allPages.length - i
decreasing_by
  rename_i h
  omega

/-- The consecutive 50-page slices of the page list. -/
def chunks50 : List LogseqPage → List (List LogseqPage)
  | [] => []
  | p :: rest => (p :: rest).take 50 :: chunks50 ((p :: rest).drop 50)
termination_by pages => pages.length
decreasing_by
  simp
  omega

/-- The batch-importer invocations in an event trace. -/
def callsOf : List ImportEvent → List (List LogseqPage)
  | [] => []
  | ImportEvent.batchCall b :: rest => b :: callsOf rest
  | ImportEvent.progress _ _ :: rest => callsOf rest

/-- The expected call/progress interleaving, from the spec's words: one
progress notification `min(k+50, N) / N` directly after each batch call. -/
def progressSpec (total : Nat) : List (List LogseqPage) → Nat → List ImportEvent
  | [], _ => []
  | b :: bs, k =>
    ImportEvent.batchCall b :: ImportEvent.progress (min (k + 50) total) total ::
      progressSpec total bs (k + 50)

/-- The driving loop from position `i` produces exactly the spec'd
call/progress interleaving over the remaining chunks. -/
theorem importLoopFrom_eq_spec (pages : List LogseqPage) :
    ∀ (fuel i : Nat), pages.length - i ≤ fuel →
      importLoopFrom pages i = progressSpec pages.length (chunks50 (pages.drop i)) i := by
  intro fuel
  induction fuel with
  | zero =>
    intro i h
    have hge : pages.length ≤ i := by omega
    rw [importLoopFrom, if_neg (by omega)]
    rw [List.drop_eq_nil_of_le hge, chunks50]
    rfl
  | succ fuel ih =>
    intro i h
    rcases Nat.lt_or_ge i pages.length with hlt | hge
    · rw [importLoopFrom, if_pos hlt]
      cases hdi : pages.drop i with
      | nil =>
        have := congrArg List.length hdi
        simp at this
        omega
      | cons p rest =>
        rw [chunks50]
        rw [← hdi]
        rw [progressSpec]
        rw [ih (i + 50) (by omega)]
        rw [List.drop_drop]
        try rw [show 50 + i = i + 50 from by omega]
    · rw [importLoopFrom, if_neg (by omega)]
      rw [List.drop_eq_nil_of_le hge, chunks50]
      rfl

/-- Concatenating the chunks restores the page list. -/
theorem chunks50_join :
    ∀ (fuel : Nat) (pages : List LogseqPage), pages.length ≤ fuel →
      (chunks50 pages).flatten = pages := by
  intro fuel
  induction fuel with
  | zero =>
    intro pages h
    have : pages = [] := List.length_eq_zero.mp (by omega)
    subst this
    rw [chunks50]
    rfl
  | succ fuel ih =>
    intro pages h
    cases pages with
    | nil => rw [chunks50]; rfl
    | cons p rest =>
      rw [chunks50, List.flatten]
      rw [ih ((p :: rest).drop 50) (by simp at h ⊢; omega)]
      exact List.take_append_drop 50 (p :: rest)

/-- The number of chunks is `⌈N / 50⌉`. -/
theorem chunks50_count :
    ∀ (fuel : Nat) (pages : List LogseqPage), pages.length ≤ fuel →
      (chunks50 pages).length = (pages.length + 49) / 50 := by
  intro fuel
  induction fuel with
  | zero =>
    intro pages h
    have : pages = [] := List.length_eq_zero.mp (by omega)
    subst this
    rw [chunks50]
    rfl
  | succ fuel ih =>
    intro pages h
    cases pages with
    | nil => rw [chunks50]; rfl
    | cons p rest =>
      rw [chunks50]
      simp only [List.length_cons]
      rw [ih ((p :: rest).drop 50) (by simp at h ⊢; omega)]
      simp only [List.length_drop, List.length_cons]
      omega

/-- Every chunk holds at most 50 pages. -/
theorem chunks50_size :
    ∀ (fuel : Nat) (pages : List LogseqPage), pages.length ≤ fuel →
      ∀ b ∈ chunks50 pages, b.length ≤ 50 := by
  intro fuel
  induction fuel with
  | zero =>
    intro pages h b hb
    have : pages = [] := List.length_eq_zero.mp (by omega)
    subst this
    rw [chunks50] at hb
    simp at hb
  | succ fuel ih =>
    intro pages h b hb
    cases pages with
    | nil => rw [chunks50] at hb; simp at hb
    | cons p rest =>
      rw [chunks50] at hb
      rcases List.mem_cons.mp hb with rfl | hb
      · simp
      · exact ih ((p :: rest).drop 50) (by simp at h ⊢; omega) b hb

/-- The spec'd interleaving calls the batch importer exactly on the given
chunks. -/
theorem callsOf_progressSpec (total : Nat) :
    ∀ (bs : List (List LogseqPage)) (k : Nat), callsOf (progressSpec total bs k) = bs := by
  intro bs
  induction bs with
  | nil => intro k; rfl
  | cons b bs ih =>
    intro k
    rw [progressSpec, callsOf, callsOf, ih]

/-! ### Continuation lines and a block's id (parser.ts lines 105–117) -/

/-- A line the loop's final branch treats as a continuation of the current
block: non-blank after trimming and not a block-marker line. -/
def isContLine (l : Str) : Bool :=
  !(jsTrim l).isEmpty && !((str "- ").isPrefixOf (jsTrim l))

/-- The values of the `id::` lines among a run of lines, in order. -/
def idValuesOf (lines : List Str) : List Str :=
  lines.filterMap (fun l => matchId (jsTrim l))

/-- `stepLine` on a continuation line with a non-empty stack: the head frame
is updated in place. -/
theorem stepLine_cont (pp : List (Str × Str)) (dr : List LogseqBlock) (f : Frame)
    (rest : List Frame) (l : Str) (h1 : (jsTrim l).isEmpty = false)
    (h2 : (str "- ").isPrefixOf (jsTrim l) = false) :
    stepLine ⟨pp, dr, f :: rest, false⟩ l =
      match matchId (jsTrim l) with
      | some v => ⟨pp, dr, { f with id := some v } :: rest, false⟩
      | none =>
        match matchProperty (jsTrim l) with
        | some (k, v) =>
          ⟨pp, dr, { f with properties := objSet k v f.properties } :: rest, false⟩
        | none => ⟨pp, dr, f :: rest, false⟩ := by
  unfold stepLine
  dsimp only
  rw [if_neg (by simp [h1]), if_neg (by simp), if_neg (by simp [h2])]

/-- An `id::` continuation line overwrites the current block's id
(`currentBlock.id = idMatch[1]`, unconditionally). -/
theorem stepLine_cont_id (pp : List (Str × Str)) (dr : List LogseqBlock) (f : Frame)
    (rest : List Frame) (l : Str) (v : Str) (h1 : (jsTrim l).isEmpty = false)
    (h2 : (str "- ").isPrefixOf (jsTrim l) = false)
    (hm : matchId (jsTrim l) = some v) :
    stepLine ⟨pp, dr, f :: rest, false⟩ l = ⟨pp, dr, { f with id := some v } :: rest, false⟩ := by
  rw [stepLine_cont pp dr f rest l h1 h2, hm]

/-- A `key:: value` continuation line (not an `id::` one) updates only the
current block's properties. -/
theorem stepLine_cont_prop (pp : List (Str × Str)) (dr : List LogseqBlock) (f : Frame)
    (rest : List Frame) (l : Str) (k v : Str) (h1 : (jsTrim l).isEmpty = false)
    (h2 : (str "- ").isPrefixOf (jsTrim l) = false)
    (hm : matchId (jsTrim l) = none) (hp : matchProperty (jsTrim l) = some (k, v)) :
    stepLine ⟨pp, dr, f :: rest, false⟩ l =
      ⟨pp, dr, { f with properties := objSet k v f.properties } :: rest, false⟩ := by
  rw [stepLine_cont pp dr f rest l h1 h2, hm, hp]

/-- A continuation line matching neither pattern is silently dropped. -/
theorem stepLine_cont_skip (pp : List (Str × Str)) (dr : List LogseqBlock) (f : Frame)
    (rest : List Frame) (l : Str) (h1 : (jsTrim l).isEmpty = false)
    (h2 : (str "- ").isPrefixOf (jsTrim l) = false)
    (hm : matchId (jsTrim l) = none) (hp : matchProperty (jsTrim l) = none) :
    stepLine ⟨pp, dr, f :: rest, false⟩ l = ⟨pp, dr, f :: rest, false⟩ := by
  rw [stepLine_cont pp dr f rest l h1 h2, hm, hp]

/-- The last element of a cons, as an `Option.or` chain. -/
theorem getLast?_cons_or (v : Str) (t : List Str) (d : Option Str) :
    ((v :: t).getLast?).or d = (t.getLast?).or (some v) := by
  induction t generalizing v d with
  | nil => rfl
  | cons b l ih =>
    rw [List.getLast?_cons_cons]
    rw [ih b d, ih b (some v)]

/-- Folding the line handler over continuation lines keeps everything but the
head frame, whose id becomes the last `id::` value seen (its previous id when
none appears). -/
theorem foldl_contLines (ls : List Str) :
    ∀ (pp : List (Str × Str)) (dr : List LogseqBlock) (f : Frame) (rest : List Frame),
      (∀ l ∈ ls, isContLine l = true) →
      ∃ f' : Frame,
        ls.foldl stepLine ⟨pp, dr, f :: rest, false⟩ = ⟨pp, dr, f' :: rest, false⟩ ∧
        f'.id = ((idValuesOf ls).getLast?).or f.id ∧
        f'.content = f.content ∧ f'.level = f.level ∧ f'.childrenRev = f.childrenRev := by
  induction ls with
  | nil =>
    intro pp dr f rest _
    exact ⟨f, rfl, by simp [idValuesOf], rfl, rfl, rfl⟩
  | cons l ls ih =>
    intro pp dr f rest hall
    have hl := hall l (by simp)
    unfold isContLine at hl
    simp only [Bool.and_eq_true, Bool.not_eq_true'] at hl
    have hrest : ∀ x ∈ ls, isContLine x = true := fun x hx => hall x (by simp [hx])
    rw [List.foldl_cons]
    cases hm : matchId (jsTrim l) with
    | some v =>
      rw [stepLine_cont_id pp dr f rest l v hl.1 hl.2 hm]
      obtain ⟨f', heq, hid, hc, hlv, hch⟩ := ih pp dr { f with id := some v } rest hrest
      refine ⟨f', heq, ?_, hc, hlv, hch⟩
      have hcons : idValuesOf (l :: ls) = v :: idValuesOf ls := by
        simp [idValuesOf, List.filterMap_cons, hm]
      rw [hcons, getLast?_cons_or]
      exact hid
    | none =>
      have hcons : idValuesOf (l :: ls) = idValuesOf ls := by
        simp [idValuesOf, List.filterMap_cons, hm]
      cases hp : matchProperty (jsTrim l) with
      | some kv =>
        rw [stepLine_cont_prop pp dr f rest l kv.1 kv.2 hl.1 hl.2 hm (by rw [hp])]
        obtain ⟨f', heq, hid, hc, hlv, hch⟩ :=
          ih pp dr { f with properties := objSet kv.1 kv.2 f.properties } rest hrest
        exact ⟨f', heq, by rw [hcons]; exact hid, hc, hlv, hch⟩
      | none =>
        rw [stepLine_cont_skip pp dr f rest l hl.1 hl.2 hm hp]
        obtain ⟨f', heq, hid, hc, hlv, hch⟩ := ih pp dr f rest hrest
        exact ⟨f', heq, by rw [hcons]; exact hid, hc, hlv, hch⟩

/-- The very first block line of a file: the stack is empty, a fresh frame is
pushed. -/
theorem stepLine_block_start (bl : Str) (hbl : (str "- ").isPrefixOf (jsTrim bl) = true) :
    stepLine ⟨[], [], [], true⟩ bl =
      ⟨[], [], [⟨none, (jsTrim bl).drop 2, [], (bl.takeWhile isJsWs).length, []⟩], false⟩ := by
  have h1 : (jsTrim bl).isEmpty = false := by
    rcases List.isPrefixOf_iff_prefix.mp hbl with ⟨t, ht⟩
    rw [← ht]
    rfl
  unfold stepLine
  dsimp only
  rw [if_neg (by simp [h1]), if_neg (by simp [hbl]), if_pos hbl]
  rfl

/-! ## The claims -/

/-- The per-page loop splits over a decomposition of the page list: the
notifications concatenate and the host state threads through. -/
theorem importPageLoop_append {σ : Type} (host : Host σ) (graph : LogseqGraph)
    (apm : List (Str × Str)) (xs ys : List LogseqPage) :
    ∀ s : σ, importPageLoop host graph apm s (xs ++ ys) =
      ((importPageLoop host graph apm (importPageLoop host graph apm s xs).1 ys).1,
       (importPageLoop host graph apm s xs).2 ++
         (importPageLoop host graph apm (importPageLoop host graph apm s xs).1 ys).2) := by
  induction xs with
  | nil =>
    intro s
    rw [List.nil_append]
    rw [show importPageLoop host graph apm s [] = (s, []) from rfl]
    rw [List.nil_append]
  | cons p xs ih =>
    intro s
    rw [List.cons_append, importPageLoop, importPageLoop]
    rcases hpa : pageAttempt host graph apm s p with ⟨s1, r⟩
    dsimp only
    rw [ih s1]
    rcases hrec : importPageLoop host graph apm s1 xs with ⟨s2, notifs⟩
    dsimp only
    refine congrArg (Prod.mk _) ?_
    exact (List.append_assoc _ _ _).symm

/-- C4: during a batch import, a page whose creation attempt throws yields
exactly the user-visible error notification naming that page, and the loop
carries on with the remaining pages of the batch from the post-failure host
state — the failure aborts neither the rest of the batch nor anything after
it (the driving loop of C8 calls the batch importer unconditionally for every
chunk). -/
theorem importPageBatch_isolates_failure {σ : Type} (host : Host σ) (graph : LogseqGraph)
    (apm : List (Str × Str)) (s : σ) (pre post : List LogseqPage) (p : LogseqPage)
    (e : Str) (s1 : σ)
    (hfail : pageAttempt host graph apm (importPageLoop host graph apm s pre).1 p =
      (s1, Except.error e)) :
    importPageLoop host graph apm s (pre ++ p :: post) =
      ((importPageLoop host graph apm s1 post).1,
        (importPageLoop host graph apm s pre).2 ++
          ((str "error", str "导入页面 \"" ++ p.name ++ str "\" 失败: " ++ e) ::
            (importPageLoop host graph apm s1 post).2)) := by
  rw [importPageLoop_append host graph apm pre (p :: post) s]
  rw [importPageLoop, hfail]
  dsimp only
  rcases hrec : importPageLoop host graph apm s1 post with ⟨s2, notifs⟩
  dsimp only
  rfl

/-- A concrete host for exercising the per-page error boundary: creating the
page named `B` always throws, every other command succeeds. -/
def wHost : Host Nat :=
  ⟨fun s c =>
    match c with
    | .insertBlock t =>
      if t = str "B" then (s + 1, .throwErr (str "boom")) else (s + 1, .ret (some (s + 100)))
    | .setProperties _ _ => (s + 1, .ret none)
    | .getBlock i => (s + 1, .ret (some i))
    | .batchInsertReprs _ _ => (s + 1, .ret none)⟩

/-- Pages with no blocks, for driving the loop. -/
def pgA : LogseqPage := ⟨str "A", [], []⟩

/-- The page whose creation `wHost` rejects. -/
def pgB : LogseqPage := ⟨str "B", [], []⟩

/-- A page imported after the failing one. -/
def pgC : LogseqPage := ⟨str "C", [], []⟩

/-- The empty graph. -/
def emptyLogseqGraph : LogseqGraph := ⟨[], []⟩

/-- Witness for C4: in the batch `[A, B, C]` against a host that throws on
creating `B`, the loop emits exactly the error notification for `B` and still
processes `C`. -/
theorem importPageBatch_isolates_failure_witness :
    pageAttempt wHost emptyLogseqGraph [] (importPageLoop wHost emptyLogseqGraph [] 0 [pgA]).1 pgB =
      (3, Except.error (str "boom")) ∧
    importPageLoop wHost emptyLogseqGraph [] 0 ([pgA] ++ pgB :: [pgC]) =
      ((importPageLoop wHost emptyLogseqGraph [] 3 [pgC]).1,
        (importPageLoop wHost emptyLogseqGraph [] 0 [pgA]).2 ++
          ((str "error", str "导入页面 \"" ++ pgB.name ++ str "\" 失败: " ++ str "boom") ::
            (importPageLoop wHost emptyLogseqGraph [] 3 [pgC]).2)) :=
  ⟨rfl,
    importPageBatch_isolates_failure wHost emptyLogseqGraph [] 0 [pgA] [pgC] pgB (str "boom") 3 rfl⟩

/-- C1: `parseLogseqFile` builds the hierarchy so that, in the flattened
document order of the parsed forest, (1) the nearest preceding position with
a strictly smaller level is an ancestor of position `i`, and (2) every
ancestor of `i` has a strictly smaller level — so a block never becomes a
child of a block at an equal (or deeper) level: equal-level blocks end up
siblings.  (`flatLS` lists each block's level and subtree size in pre-order;
`AncPos xs i j` says position `i` lies inside the subtree interval of
position `j`.) -/
theorem parseLogseqFile_hierarchy (file : LogseqFile) (i j : Nat)
    (hi : i < forestSize (parseLogseqFile file).blocks) :
    (NearestSmaller (flatLS (parseLogseqFile file).blocks) i j →
      AncPos (flatLS (parseLogseqFile file).blocks) i j) ∧
    (AncPos (flatLS (parseLogseqFile file).blocks) i j →
      lvlAt (flatLS (parseLogseqFile file).blocks) j <
        lvlAt (flatLS (parseLogseqFile file).blocks) i) := by
  have hS := parseLogseqFile_strict file
  exact ⟨flatLS_nearest_aux (forestSize (parseLogseqFile file).blocks) _ le_rfl hS i j hi,
    flatLS_anc_lvl_aux (forestSize (parseLogseqFile file).blocks) _ le_rfl hS i j hi⟩

/-- Witness for C1, on the file `- a / (indented) - b / - c`: position 1 (the
block `b`) is in range, and the theorem's two implications hold there against
position 0 (the block `a`). -/
theorem parseLogseqFile_hierarchy_witness :
    1 < forestSize (parseLogseqFile ⟨str "pages/W.md", str "- a\n  - b\n- c"⟩).blocks ∧
    ((NearestSmaller (flatLS (parseLogseqFile ⟨str "pages/W.md", str "- a\n  - b\n- c"⟩).blocks)
        1 0 →
      AncPos (flatLS (parseLogseqFile ⟨str "pages/W.md", str "- a\n  - b\n- c"⟩).blocks) 1 0) ∧
     (AncPos (flatLS (parseLogseqFile ⟨str "pages/W.md", str "- a\n  - b\n- c"⟩).blocks) 1 0 →
      lvlAt (flatLS (parseLogseqFile ⟨str "pages/W.md", str "- a\n  - b\n- c"⟩).blocks) 0 <
        lvlAt (flatLS (parseLogseqFile ⟨str "pages/W.md", str "- a\n  - b\n- c"⟩).blocks) 1)) :=
  have hi : 1 < forestSize (parseLogseqFile ⟨str "pages/W.md", str "- a\n  - b\n- c"⟩).blocks := by
    rw [show (parseLogseqFile ⟨str "pages/W.md", str "- a\n  - b\n- c"⟩).blocks =
      [⟨none, str "a", [], [⟨none, str "b", [], [], 2⟩], 0⟩, ⟨none, str "c", [], [], 0⟩]
      from rfl]
    simp [forestSize]
  ⟨hi, parseLogseqFile_hierarchy ⟨str "pages/W.md", str "- a\n  - b\n- c"⟩ 1 0 hi⟩

/-- C3 (amended): for a single-block file the parsed block's id is the value
of the LAST `id::` continuation line — each `id::` line overwrites the field,
so with more than one such line the first occurrence does NOT win; the last
does.  `bl` is the block line, `ls` the continuation lines. -/
theorem parseLogseqFile_last_id_wins (file : LogseqFile) (bl : Str) (ls : List Str)
    (hsplit : splitLines file.content = bl :: ls)
    (hbl : (str "- ").isPrefixOf (jsTrim bl) = true)
    (hls : ∀ l ∈ ls, isContLine l = true) :
    ∃ b : LogseqBlock,
      (parseLogseqFile file).blocks = [b] ∧
      b.id = (idValuesOf ls).getLast? ∧
      b.content = (jsTrim bl).drop 2 := by
  unfold parseLogseqFile
  dsimp only
  rw [hsplit, List.foldl_cons, stepLine_block_start bl hbl]
  obtain ⟨f', heq, hid, hc, hlv, hch⟩ := foldl_contLines ls [] []
    ⟨none, (jsTrim bl).drop 2, [], (bl.takeWhile isJsWs).length, []⟩ [] hls
  rw [heq]
  refine ⟨closeFrame f', rfl, ?_, ?_⟩
  · rw [show (closeFrame f').id = f'.id from rfl, hid]
    simp
  · rw [show (closeFrame f').content = f'.content from rfl, hc]

/-- Counterexample to C3 as stated: with two `id::` continuation lines the
block's id ends up `bbb` — the value of the SECOND line, not the first. -/
theorem parseLogseqFile_first_id_loses :
    ((parseLogseqFile ⟨str "pages/C3.md", str "- x\n  id:: aaa\n  id:: bbb"⟩).blocks.map
        (fun b => b.id)) = [some (str "bbb")] ∧
    some (str "bbb") ≠ some (str "aaa") :=
  ⟨rfl, by decide⟩

/-- Witness for the amended C3 theorem on the same two-`id::` file. -/
theorem parseLogseqFile_last_id_wins_witness :
    splitLines (str "- x\n  id:: aaa\n  id:: bbb") =
      str "- x" :: [str "  id:: aaa", str "  id:: bbb"] ∧
    (str "- ").isPrefixOf (jsTrim (str "- x")) = true ∧
    (∀ l ∈ [str "  id:: aaa", str "  id:: bbb"], isContLine l = true) ∧
    ∃ b : LogseqBlock,
      (parseLogseqFile ⟨str "pages/C.md", str "- x\n  id:: aaa\n  id:: bbb"⟩).blocks = [b] ∧
      b.id = (idValuesOf [str "  id:: aaa", str "  id:: bbb"]).getLast? ∧
      b.content = (jsTrim (str "- x")).drop 2 :=
  ⟨by decide, by decide, by decide,
    parseLogseqFile_last_id_wins ⟨str "pages/C.md", str "- x\n  id:: aaa\n  id:: bbb"⟩
      (str "- x") [str "  id:: aaa", str "  id:: bbb"] (by decide) (by decide) (by decide)⟩

/-- C6 (amended): a raw text in which no recognizer fires anywhere becomes a
single plain-text fragment equal to the input — except that the EMPTY raw
text produces the empty fragment list (`flushBuffer` pushes nothing for an
empty buffer), not a one-element one. -/
theorem parseContentToFragments_plain_round_trip (content : Str) (graph : LogseqGraph)
    (apm : List (Str × Str)) (hn : noInlineSyntax content = true) :
    parseContentToFragments content graph apm =
      if content.isEmpty then [] else [{ t := str "t", v := content }] := by
  unfold parseContentToFragments
  rw [scanContent_noSyntax graph apm content [] hn, List.nil_append]
  rfl

/-- Counterexample to C6 as stated: the empty raw text has no recognized
inline syntax, yet the fragment list is empty rather than a single plain-text
fragment. -/
theorem parseContentToFragments_empty_no_fragment :
    noInlineSyntax (str "") = true ∧
    parseContentToFragments (str "") emptyLogseqGraph [] = [] ∧
    ([] : List ContentFragment).length ≠ 1 :=
  ⟨by decide, by rw [parseContentToFragments_eval]; rfl, by decide⟩

/-- Witness for the amended C6 theorem on a syntax-free text. -/
theorem parseContentToFragments_plain_round_trip_witness :
    noInlineSyntax (str "hello world.") = true ∧
    parseContentToFragments (str "hello world.") emptyLogseqGraph [] =
      (if (str "hello world.").isEmpty then []
       else [{ t := str "t", v := str "hello world." }]) :=
  ⟨by decide,
    parseContentToFragments_plain_round_trip (str "hello world.") emptyLogseqGraph []
      (by decide)⟩

/-- C5 (amended): whenever the scan actually reaches a well-formed block
reference `((u))` OR block embed `{{embed ((u))}}` — with ANY pending
plain-text buffer, i.e. the construct was not consumed inside an earlier
recognizer match — and `u` is absent from the graph's block index, a
reference-type fragment whose value is the literal placeholder text
containing `u` is emitted (conjuncts 1–2, stated over the scan loop's own
cursor states).  At the interface, any text whose prefix before the construct
is recognizer-free plain text therefore yields that fragment (conjuncts 3–4).
The embedding is a total function, so the scan never throws.  Without the
reachability condition the claim fails: an attachment match earlier in the
text can swallow the construct (see the counterexample). -/
theorem parseContentToFragments_unresolved_ref (graph : LogseqGraph)
    (apm : List (Str × Str)) (p u q : Str)
    (hp : ∀ c ∈ p, inertChar c = true)
    (hs : attachSearch (p ++ '(' :: '(' :: (u ++ ')' :: ')' :: q)) = none)
    (hse : attachSearch
      (p ++ (str "\x7b\x7bembed ((" ++ u ++ ')' :: ')' :: '}' :: '}' :: q)) = none)
    (hu : ∀ c ∈ u, c ≠ ')')
    (hmiss : objGet u graph.blocks = none) :
    (∀ buffer : Str,
      { t := str "r", v := str "未找到的块: " ++ u, q := some u } ∈
        scanContent graph apm ('(' :: '(' :: (u ++ ')' :: ')' :: q)) buffer) ∧
    (∀ buffer : Str,
      { t := str "r", v := str "未找到的块: " ++ u, q := some u } ∈
        scanContent graph apm
          (str "\x7b\x7bembed ((" ++ u ++ ')' :: ')' :: '}' :: '}' :: q) buffer) ∧
    { t := str "r", v := str "未找到的块: " ++ u, q := some u } ∈
      parseContentToFragments (p ++ '(' :: '(' :: (u ++ ')' :: ')' :: q)) graph apm ∧
    { t := str "r", v := str "未找到的块: " ++ u, q := some u } ∈
      parseContentToFragments
        (p ++ (str "\x7b\x7bembed ((" ++ u ++ ')' :: ')' :: '}' :: '}' :: q)) graph apm := by
  have hv : refValue graph u = str "未找到的块: " ++ u := by
    unfold refValue
    rw [hmiss]
  have href : ∀ buffer : Str,
      { t := str "r", v := str "未找到的块: " ++ u, q := some u } ∈
        scanContent graph apm ('(' :: '(' :: (u ++ ')' :: ')' :: q)) buffer := by
    intro buffer
    rw [scanContent_ref_step graph apm u q buffer hu, hv]
    exact mem_flushB _ _ _ (List.mem_cons_self _ _)
  have hemb : ∀ buffer : Str,
      { t := str "r", v := str "未找到的块: " ++ u, q := some u } ∈
        scanContent graph apm
          (str "\x7b\x7bembed ((" ++ u ++ ')' :: ')' :: '}' :: '}' :: q) buffer := by
    intro buffer
    rw [scanContent_embed_step graph apm u q buffer hu, hv]
    exact mem_flushB _ _ _ (List.mem_cons_self _ _)
  refine ⟨href, hemb, ?_, ?_⟩
  · unfold parseContentToFragments
    rw [ scanContent_inert_prefix graph apm p _ [] hp hs]
    exact href ([] ++ p)
  · unfold parseContentToFragments
    rw [ scanContent_inert_prefix graph apm p _ [] hp hse]
    exact hemb ([] ++ p)

/-- Counterexample to C5 as stated: `[x](a((zzz)))` contains the well-formed
reference `((zzz))` and the graph is empty, yet no reference fragment (and no
placeholder) is emitted: the unanchored attachment regex matches
`[x](a((zzz)` first and the scan jumps past it. -/
theorem parseContentToFragments_ref_swallowed :
    parseContentToFragments (str "[x](a((zzz)))") emptyLogseqGraph [] =
      [{ t := str "t", v := str "[附件未找到: a((zzz]" },
       { t := str "t", v := str "))" }] := by
  rw [parseContentToFragments_eval]
  decide

/-- Witness for the amended C5 theorem: `"See ((zzz))"` and
`"See {{embed ((zzz))}}"` against the empty graph both yield the placeholder
fragment. -/
theorem parseContentToFragments_unresolved_ref_witness :
    (∀ c ∈ str "See ", inertChar c = true) ∧
    attachSearch (str "See " ++ '(' :: '(' :: (str "zzz" ++ ')' :: ')' :: str "")) = none ∧
    attachSearch
      (str "See " ++
        (str "\x7b\x7bembed ((" ++ str "zzz" ++ ')' :: ')' :: '}' :: '}' :: str "")) = none ∧
    (∀ c ∈ str "zzz", c ≠ ')') ∧
    objGet (str "zzz") emptyLogseqGraph.blocks = none ∧
    ({ t := str "r", v := str "未找到的块: " ++ str "zzz", q := some (str "zzz") } ∈
      parseContentToFragments (str "See " ++ '(' :: '(' :: (str "zzz" ++ ')' :: ')' :: str ""))
        emptyLogseqGraph []) ∧
    { t := str "r", v := str "未找到的块: " ++ str "zzz", q := some (str "zzz") } ∈
      parseContentToFragments
        (str "See " ++
          (str "\x7b\x7bembed ((" ++ str "zzz" ++ ')' :: ')' :: '}' :: '}' :: str ""))
        emptyLogseqGraph [] :=
  ⟨by decide, by decide, by decide, by decide, rfl,
    (parseContentToFragments_unresolved_ref emptyLogseqGraph [] (str "See ") (str "zzz")
      (str "") (by decide) (by decide) (by decide) (by decide) rfl).2.2.1,
    (parseContentToFragments_unresolved_ref emptyLogseqGraph [] (str "See ") (str "zzz")
      (str "") (by decide) (by decide) (by decide) (by decide) rfl).2.2.2⟩

/-- A graph whose block index holds a block with EMPTY content under id
`uuu`. -/
def graphEmptyU : LogseqGraph := ⟨[], [(str "uuu", ⟨some (str "uuu"), [], [], [], 0⟩)]⟩

/-- C10 (amended): a block reference `((u))` or block embed `{{embed ((u))}}`
that the scan reaches — with any pending buffer (conjuncts 1–2, over the scan
loop's own cursor states), in particular after a recognizer-free plain prefix
(conjuncts 3–4, at the interface) — and that resolves to a block whose
content is the empty string produces the SAME block-not-found placeholder as
an unresolved id (JS `||` treats the empty string as falsy), so at the
fragment interface an empty resolved block is indistinguishable from an
unresolved reference.  As with C5, the claim as stated over every text
containing `((u))` fails: an earlier attachment match can swallow the
reference (see the counterexample). -/
theorem parseContentToFragments_empty_block_placeholder (graph : LogseqGraph)
    (apm : List (Str × Str)) (p u q : Str) (b : LogseqBlock)
    (hp : ∀ c ∈ p, inertChar c = true)
    (hs : attachSearch (p ++ '(' :: '(' :: (u ++ ')' :: ')' :: q)) = none)
    (hse : attachSearch
      (p ++ (str "\x7b\x7bembed ((" ++ u ++ ')' :: ')' :: '}' :: '}' :: q)) = none)
    (hu : ∀ c ∈ u, c ≠ ')')
    (hres : objGet u graph.blocks = some b) (hbc : b.content = []) :
    (∀ buffer : Str,
      { t := str "r", v := str "未找到的块: " ++ u, q := some u } ∈
        scanContent graph apm ('(' :: '(' :: (u ++ ')' :: ')' :: q)) buffer) ∧
    (∀ buffer : Str,
      { t := str "r", v := str "未找到的块: " ++ u, q := some u } ∈
        scanContent graph apm
          (str "\x7b\x7bembed ((" ++ u ++ ')' :: ')' :: '}' :: '}' :: q) buffer) ∧
    { t := str "r", v := str "未找到的块: " ++ u, q := some u } ∈
      parseContentToFragments (p ++ '(' :: '(' :: (u ++ ')' :: ')' :: q)) graph apm ∧
    { t := str "r", v := str "未找到的块: " ++ u, q := some u } ∈
      parseContentToFragments
        (p ++ (str "\x7b\x7bembed ((" ++ u ++ ')' :: ')' :: '}' :: '}' :: q)) graph apm := by
  have hv : refValue graph u = str "未找到的块: " ++ u := by
    simp [refValue, hres, hbc]
  have href : ∀ buffer : Str,
      { t := str "r", v := str "未找到的块: " ++ u, q := some u } ∈
        scanContent graph apm ('(' :: '(' :: (u ++ ')' :: ')' :: q)) buffer := by
    intro buffer
    rw [scanContent_ref_step graph apm u q buffer hu, hv]
    exact mem_flushB _ _ _ (List.mem_cons_self _ _)
  have hemb : ∀ buffer : Str,
      { t := str "r", v := str "未找到的块: " ++ u, q := some u } ∈
        scanContent graph apm
          (str "\x7b\x7bembed ((" ++ u ++ ')' :: ')' :: '}' :: '}' :: q) buffer := by
    intro buffer
    rw [scanContent_embed_step graph apm u q buffer hu, hv]
    exact mem_flushB _ _ _ (List.mem_cons_self _ _)
  refine ⟨href, hemb, ?_, ?_⟩
  · unfold parseContentToFragments
    rw [ scanContent_inert_prefix graph apm p _ [] hp hs]
    exact href ([] ++ p)
  · unfold parseContentToFragments
    rw [ scanContent_inert_prefix graph apm p _ [] hp hse]
    exact hemb ([] ++ p)

/-- Counterexample to C10 as stated: `[x](a((uuu)))` contains `((uuu))` and
the graph resolves `uuu` to an empty-content block, yet no placeholder (and
no reference fragment at all) is emitted — the attachment match swallows the
reference. -/
theorem parseContentToFragments_empty_block_swallowed :
    objGet (str "uuu") graphEmptyU.blocks = some ⟨some (str "uuu"), [], [], [], 0⟩ ∧
    parseContentToFragments (str "[x](a((uuu)))") graphEmptyU [] =
      [{ t := str "t", v := str "[附件未找到: a((uuu]" },
       { t := str "t", v := str "))" }] :=
  ⟨rfl, by rw [parseContentToFragments_eval]; decide⟩

/-- Witness for the amended C10 theorem: `"see ((uuu)) ok"` and
`"see {{embed ((uuu))}} ok"` against the empty-content block both yield the
placeholder fragment. -/
theorem parseContentToFragments_empty_block_placeholder_witness :
    (∀ c ∈ str "see ", inertChar c = true) ∧
    attachSearch (str "see " ++ '(' :: '(' :: (str "uuu" ++ ')' :: ')' :: str " ok")) = none ∧
    attachSearch
      (str "see " ++
        (str "\x7b\x7bembed ((" ++ str "uuu" ++ ')' :: ')' :: '}' :: '}' :: str " ok")) = none ∧
    (∀ c ∈ str "uuu", c ≠ ')') ∧
    objGet (str "uuu") graphEmptyU.blocks = some ⟨some (str "uuu"), [], [], [], 0⟩ ∧
    (⟨some (str "uuu"), [], [], [], 0⟩ : LogseqBlock).content = [] ∧
    ({ t := str "r", v := str "未找到的块: " ++ str "uuu", q := some (str "uuu") } ∈
      parseContentToFragments
        (str "see " ++ '(' :: '(' :: (str "uuu" ++ ')' :: ')' :: str " ok")) graphEmptyU []) ∧
    { t := str "r", v := str "未找到的块: " ++ str "uuu", q := some (str "uuu") } ∈
      parseContentToFragments
        (str "see " ++
          (str "\x7b\x7bembed ((" ++ str "uuu" ++ ')' :: ')' :: '}' :: '}' :: str " ok"))
        graphEmptyU [] :=
  ⟨by decide, by decide, by decide, by decide, rfl, rfl,
    (parseContentToFragments_empty_block_placeholder graphEmptyU [] (str "see ") (str "uuu")
      (str " ok") ⟨some (str "uuu"), [], [], [], 0⟩ (by decide) (by decide) (by decide)
      (by decide) rfl rfl).2.2.1,
    (parseContentToFragments_empty_block_placeholder graphEmptyU [] (str "see ") (str "uuu")
      (str " ok") ⟨some (str "uuu"), [], [], [], 0⟩ (by decide) (by decide) (by decide)
      (by decide) rfl rfl).2.2.2⟩

/-- C7: the scan always terminates with a finite fragment list — at most one
fragment per input char — for EVERY graph, including cyclic ones (the witness
uses a block whose own content references its own id).  Embed and reference
resolution substitute the referenced block's raw content verbatim, exactly
one level deep, as an opaque fragment value (`v := b.content`, never
rescanned: the scan continues at `q`, directly after the closing delimiter),
and an opening `((` followed only by plain chars with no closing `))` falls
through to plain-text accumulation instead of raising. -/
theorem parseContentToFragments_one_level (graph : LogseqGraph) (apm : List (Str × Str))
    (s u q v : Str) (b : LogseqBlock)
    (hu : ∀ c ∈ u, c ≠ ')')
    (hb : objGet u graph.blocks = some b) (hbc : b.content ≠ [])
    (hv : ∀ c ∈ v, inertChar c = true ∧ c ≠ ')') :
    (parseContentToFragments s graph apm).length ≤ s.length ∧
    parseContentToFragments ('(' :: '(' :: (u ++ ')' :: ')' :: q)) graph apm =
      { t := str "r", v := b.content, q := some u } ::
        parseContentToFragments q graph apm ∧
    parseContentToFragments (str "\x7b\x7bembed ((" ++ u ++ ')' :: ')' :: '}' :: '}' :: q)
        graph apm =
      { t := str "r", v := b.content, q := some u } ::
        parseContentToFragments q graph apm ∧
    parseContentToFragments ('(' :: '(' :: v) graph apm =
      [{ t := str "t", v := '(' :: '(' :: v }] := by
  have hrv : refValue graph u = b.content := by
    simp [refValue, hb, List.isEmpty_iff, hbc]
  refine ⟨?_, ?_, ?_, ?_⟩
  · have := scanContent_length_le graph apm s.length s [] le_rfl
    simpa [parseContentToFragments] using this
  · unfold parseContentToFragments
    rw [scanContent_ref_step graph apm u q [] hu, hrv]
    rfl
  · unfold parseContentToFragments
    rw [scanContent_embed_step graph apm u q [] hu, hrv]
    rfl
  · unfold parseContentToFragments
    rw [scanContent_noSyntax graph apm _ [] (noInlineSyntax_unclosed_ref v hv),
      List.nil_append]
    rfl

/-- A block whose content references its own id: the graph below is cyclic. -/
def cycBlock : LogseqBlock := ⟨some (str "u"), str "((u))", [], [], 0⟩

/-- The graph indexing the self-referential block. -/
def cycGraph : LogseqGraph := ⟨[], [(str "u", cycBlock)]⟩

/-- Witness for C7 on the cyclic graph: scanning the self-referential content
`((u))` terminates and substitutes the raw content `((u))` one level deep
without re-expanding it. -/
theorem parseContentToFragments_one_level_witness :
    (∀ c ∈ str "u", c ≠ ')') ∧
    objGet (str "u") cycGraph.blocks = some cycBlock ∧
    cycBlock.content ≠ [] ∧
    (∀ c ∈ str "x", inertChar c = true ∧ c ≠ ')') ∧
    ((parseContentToFragments (str "((u))") cycGraph []).length ≤ (str "((u))").length ∧
     parseContentToFragments ('(' :: '(' :: (str "u" ++ ')' :: ')' :: str "")) cycGraph [] =
       { t := str "r", v := cycBlock.content, q := some (str "u") } ::
         parseContentToFragments (str "") cycGraph [] ∧
     parseContentToFragments
         (str "\x7b\x7bembed ((" ++ str "u" ++ ')' :: ')' :: '}' :: '}' :: str "")
         cycGraph [] =
       { t := str "r", v := cycBlock.content, q := some (str "u") } ::
         parseContentToFragments (str "") cycGraph [] ∧
     parseContentToFragments ('(' :: '(' :: str "x") cycGraph [] =
       [{ t := str "t", v := '(' :: '(' :: str "x" }]) :=
  ⟨by decide, rfl, by decide, by decide,
    parseContentToFragments_one_level cycGraph [] (str "((u))") (str "u") (str "") (str "x")
      cycBlock (by decide) rfl (by decide) (by decide)⟩

/-- C2 is FALSE of the code (code bug): branch 5 matches the attachment regex
UNANCHORED in `remaining` but advances the cursor by `match[0].length` from
the CURRENT position.  On `"aaaaaa[x](y)"` (attachment at offset 6) the scan
advances past the six plain chars without ever flushing them into a fragment,
then matches the same attachment AGAIN: the output drops `aaaaaa` entirely
and duplicates the attachment fragment, so the emitted fragments do not cover
each input char exactly once. -/
theorem parseContentToFragments_not_lossless :
    parseContentToFragments (str "aaaaaa[x](y)") emptyLogseqGraph [] =
      [{ t := str "t", v := str "[附件未找到: y]" },
       { t := str "t", v := str "[附件未找到: y]" }] := by
  rw [parseContentToFragments_eval]
  decide

/-- C8: importing N pages drives the batch importer over exactly the
consecutive 50-page slices of the page list in order — `⌈N/50⌉ = (N+49)/50`
invocations, each of at most 50 pages, jointly covering the whole list — with
a progress notification `min(i+50, N) / N` emitted directly after each batch
call. -/
theorem startImportProcess_batching (pages : List LogseqPage) :
    importLoopFrom pages 0 = progressSpec pages.length (chunks50 pages) 0 ∧
    callsOf (importLoopFrom pages 0) = chunks50 pages ∧
    (chunks50 pages).length = (pages.length + 49) / 50 ∧
    (chunks50 pages).flatten = pages ∧
    ∀ b ∈ chunks50 pages, b.length ≤ 50 := by
  have h0 := importLoopFrom_eq_spec pages pages.length 0 (by omega)
  rw [List.drop_zero] at h0
  refine ⟨h0, ?_, chunks50_count pages.length pages le_rfl,
    chunks50_join pages.length pages le_rfl, chunks50_size pages.length pages le_rfl⟩
  rw [h0, callsOf_progressSpec]

/-- Witness for C8 (the theorem is unconditional; this pins one instance):
the three-page list is covered by its chunks. -/
theorem startImportProcess_batching_witness :
    (chunks50 [pgA, pgB, pgC]).flatten = [pgA, pgB, pgC] :=
  (startImportProcess_batching [pgA, pgB, pgC]).2.2.2.1

/-- C9: the asset migrator returns the empty map, no notification and no
upload call when no asset path is discovered; and when opening the assets
directory fails it catches the failure, notifies (only when the directory was
actually consulted, i.e. some asset path exists) and returns the empty map
instead of throwing. -/
theorem preUploadAssets_tolerates (env : AssetsEnv) (pages : List LogseqPage) :
    (collectAssetPaths pages = [] →
      preUploadAssetsAndGetPathMap env pages = ([], [], [])) ∧
    (∀ e, env.assetsDir = Except.error e →
      preUploadAssetsAndGetPathMap env pages =
        ([], if collectAssetPaths pages = [] then []
             else [(str "error", str "无法打开 'assets' 文件夹，附件迁移失败。")], [])) := by
  constructor
  · intro h
    unfold preUploadAssetsAndGetPathMap
    rw [if_pos (by rw [h]; rfl)]
  · intro e he
    unfold preUploadAssetsAndGetPathMap
    by_cases h0 : collectAssetPaths pages = []
    · rw [if_pos (by rw [h0]; rfl), if_pos h0]
    · rw [if_neg (fun hl => h0 (List.length_eq_zero.mp hl)), he, if_neg h0]

/-- An environment whose assets directory cannot be opened. -/
def noAssetsEnv : AssetsEnv := ⟨Except.error (str "ENOENT"), fun _ => Except.ok none⟩

/-- Witness for C9: no discovered assets means no upload and an empty map,
even when the assets directory is missing. -/
theorem preUploadAssets_tolerates_witness :
    collectAssetPaths ([] : List LogseqPage) = [] ∧
    preUploadAssetsAndGetPathMap noAssetsEnv [] = ([], [], []) :=
  ⟨rfl, (preUploadAssets_tolerates noAssetsEnv []).1 rfl⟩
